import Mathlib

/-!
Verification of the SimpleVisor EPT/VMX core (fork by Joe T. Sylve).

This file gives a shallow embedding of the EPT engine (`shvvmxept.c`), the
capability probes (`shvvmx.c`, `shvvmxept.c`), the control-MSR adjustment
(`shvutil.c`) and the per-CPU VMX root-entry control flow (`shvvmx.c`), and
proves properties of the embedded operations.

Modelling conventions:
* Machine words are `Nat` with explicit truncation (`% 2 ^ w`) where the
  C bit-fields truncate.
* Physical memory holding EPT tables is an association list from page frame
  numbers (PFN) to tables; a table is a list of 512 64-bit entries, exactly
  as a 4 KiB EPT paging structure.  `MmGetPhysicalAddress` and
  `MmGetVirtualForPhysical` are modelled as the identity on PFNs: a table is
  addressed by its PFN on both sides.
* The contiguous allocator (`ShUtilvAllocateContiguousMemory`) is modelled by
  a supply of fresh PFNs; it fails exactly when the supply is exhausted,
  which is the `STATUS_HV_NO_RESOURCES` path of the C code.
-/

set_option maxHeartbeats 1000000

namespace SimpleVisor

/-! ## EPT entry encodings (vmxept.h bit-fields) -/

/-- `PAGE_SIZE` -/
def PAGE_SIZE : Nat := 4096

/-- `VMX_EPT_PAGE_WALK_LENGTH`: four levels of EPT tables. -/
def VMX_EPT_PAGE_WALK_LENGTH : Nat := 4

/-- `VMX_EPT_MEMORY_TYPE.WriteBack = 6` -/
def WriteBack : Nat := 6

/-- A 4 KiB EPT table: 512 64-bit entries. -/
abbrev Table := List Nat

/-- A freshly allocated table after `__stosq(..., 0, PAGE_SIZE / 8)`. -/
def zeroTable : Table := List.replicate 512 0

/-- A non-leaf entry as written by `ShvVmxEptPopulateIdentityTable`:
`R = W = X = 1` (bits 0-2) and the 41-bit `PFN` field at bit 12. -/
def mkNonLeaf (pfn : Nat) : Nat := 7 + (pfn % 2 ^ 41) * 4096

/-- A leaf PTE as written by `ShvVmxEptPopulateIdentityTable`:
`R = W = X = 1` (bits 0-2), `MT = WriteBack` (bits 3-5), and the 40-bit
`PFN` field at bit 12. -/
def mkLeaf (pfn : Nat) : Nat := 7 + WriteBack * 8 + (pfn % 2 ^ 40) * 4096

/-- The 41-bit `PFN` bit-field of a `VMX_EPT_ENTRY` (bits 12-52). -/
def entryPFN (e : Nat) : Nat := (e / 4096) % 2 ^ 41

/-- Bit 7 of an entry: the `P` (large page) bit of a PDPTE/PDE, tested by
`ShvVmxEptCleanup`. -/
def entryLargeBit (e : Nat) : Nat := (e / 128) % 2

/-- The 9-bit table index selected from a guest-physical address for the
given table level, following the `VMX_EPT_ADDRESS` union: level 4 takes
bits 47:39 (`PML4E`), level 3 bits 38:30 (`PDPTE`), level 2 bits 29:21
(`PDE`), level 1 bits 20:12 (`PTE`). -/
def gpaIndex (level : Nat) (gpa : Nat) : Nat :=
  match level with
  | 4 => (gpa / 2 ^ 39) % 512
  | 3 => (gpa / 2 ^ 30) % 512
  | 2 => (gpa / 2 ^ 21) % 512
  | _ => (gpa / 2 ^ 12) % 512

/-! ## The EPT engine state -/

/-- The state of the EPT engine: the global `ShvVmxEptPML4` pointer (as a
PFN, `none` when `NULL`), the physical pages holding EPT tables, the
allocator's supply of fresh PFNs, allocation/free counters for the
contiguous allocator, and the global `ShvVmxEptEptp.QuadPart`. -/
structure EptState where
  pml4 : Option Nat
  heap : List (Nat × Table)
  supply : List Nat
  allocCount : Nat
  freeCount : Nat
  eptp : Nat
  deriving DecidableEq, Repr

/-- Look up the table stored at a PFN (first binding wins). -/
def heapGet : List (Nat × Table) → Nat → Option Table
  | [], _ => none
  | (k, t) :: r, p => if k = p then some t else heapGet r p

/-- Overwrite the table stored at a PFN (first binding). -/
def heapSet : List (Nat × Table) → Nat → Table → List (Nat × Table)
  | [], _, _ => []
  | (k, t) :: r, p, t' => if k = p then (k, t') :: r else (k, t) :: heapSet r p t'

/-- Remove the (first) binding of a PFN; models `MmFreeContiguousMemory`. -/
def heapDel : List (Nat × Table) → Nat → List (Nat × Table)
  | [], _ => []
  | (k, t) :: r, p => if k = p then r else (k, t) :: heapDel r p

/-- The PFNs bound in the heap. -/
def keys (h : List (Nat × Table)) : List Nat := h.map Prod.fst

/-! ## `ShvVmxEptPopulateIdentityTable` -/

/-- `ShvVmxEptPopulateIdentityTable(table, level, address)`.

At the bottom level the PTE is populated (if still zero) with
`R = W = X = 1`, `MT = WriteBack` and the PFN of the address.  At a
non-leaf level, a zero entry causes a fresh table to be allocated and
zeroed and the entry to be set to `R = W = X = 1` with the new table's
PFN, after which the recursion continues into the child; allocation
failure returns `STATUS_HV_NO_RESOURCES` (`false`).  A nonzero entry is
followed through its PFN.  The result is the new state and whether the
call returned `STATUS_SUCCESS`. -/
def populate (addr : Nat) : Nat → EptState → Nat → EptState × Bool
  | 0, st, _ => (st, false)
  | 1, st, tpfn =>
    match heapGet st.heap tpfn with
    | none => (st, false)
    | some t =>
      let i := gpaIndex 1 addr
      if t.getD i 0 = 0 then
        ({ st with heap := heapSet st.heap tpfn (t.set i (mkLeaf (addr / 4096))) }, true)
      else
        (st, true)
  | l + 2, st, tpfn =>
    match heapGet st.heap tpfn with
    | none => (st, false)
    | some t =>
      let i := gpaIndex (l + 2) addr
      let e := t.getD i 0
      if e = 0 then
        match st.supply with
        | [] => (st, false)
        | p :: rest =>
          populate addr (l + 1)
            { st with
              heap := heapSet (st.heap ++ [(p, zeroTable)]) tpfn (t.set i (mkNonLeaf p)),
              supply := rest,
              allocCount := st.allocCount + 1 } p
      else
        populate addr (l + 1) st (entryPFN e)

/-- `map_page`: `ShvVmxEptPopulateIdentityTable(ShvVmxEptPML4,
VMX_EPT_PAGE_WALK_LENGTH, address)` on the global PML4. -/
def mapPage (st : EptState) (addr : Nat) : EptState × Bool :=
  match st.pml4 with
  | none => (st, false)
  | some r => populate addr VMX_EPT_PAGE_WALK_LENGTH st r

/-- Run a sequence of `map_page` calls, discarding statuses. -/
def runMapPages (st : EptState) : List Nat → EptState
  | [] => st
  | a :: rest => runMapPages (mapPage st a).1 rest

/-! ## `ShvVmxEptBuildIdentityTables` and `ShvVmxEptInitialize` -/

/-- The inner loop of `ShvVmxEptBuildIdentityTables`: map every page
`addr, addr + PAGE_SIZE, ...` while `addr < endAddr` (the C loop bound is
`end = start + bytes - 1`, compared strictly). -/
def mapLoop (root : Nat) (addr endAddr : Nat) (st : EptState) : EptState × Bool :=
  if h : addr < endAddr then
    match populate addr VMX_EPT_PAGE_WALK_LENGTH st root with
    | (st', false) => (st', false)
    | (st', true) => mapLoop root (addr + 4096) endAddr st'
  else
    (st, true)
  termination_by endAddr - addr
  decreasing_by omega

/-- The range loop of `ShvVmxEptBuildIdentityTables`: iterate the physical
memory ranges until the `(0, 0)` sentinel. -/
def buildRanges (root : Nat) : List (Nat × Nat) → EptState → EptState × Bool
  | [], st => (st, true)
  | (base, bytes) :: rest, st =>
    if base = 0 ∧ bytes = 0 then
      (st, true)
    else
      match mapLoop root base (base + bytes - 1) st with
      | (st', false) => (st', false)
      | (st', true) => buildRanges root rest st'

/-- `ShvVmxEptBuildIdentityTables`: map every page of every range, then the
page containing the APIC base (the value of `IA32_APIC_BASE_MSR` masked by
`IA32_APIC_BASE_ADDRESS_MASK`, passed here as `apicBase`). -/
def buildIdentityTables (root : Nat) (ranges : List (Nat × Nat)) (apicBase : Nat)
    (st : EptState) : EptState × Bool :=
  match buildRanges root ranges st with
  | (st', false) => (st', false)
  | (st', true) => populate apicBase VMX_EPT_PAGE_WALK_LENGTH st' root

/-- The global `ShvVmxEptEptp` after `ShvVmxEptInitialize` succeeds: the
`PFN` field (bits 12-63) is set to the PML4's PFN, `PW` (bits 3-5) to
`VMX_EPT_PAGE_WALK_LENGTH - 1` and `MT` (bits 0-2) to `WriteBack`; the
remaining bits (`ADE` and the reserved field, bits 6-11) keep their prior
value. -/
def eptpSet (old p : Nat) : Nat :=
  (p % 2 ^ 52) * 4096 + ((old / 64) % 64) * 64 + (VMX_EPT_PAGE_WALK_LENGTH - 1) * 8 + WriteBack

/-! ## `ShvVmxEptCleanup` -/

/-- `MmFreeContiguousMemory` on one table: remove its binding and count the
free. -/
def freeOne (st : EptState) (pfn : Nat) : EptState :=
  { st with heap := heapDel st.heap pfn, freeCount := st.freeCount + 1 }

/-- The PD loop of `ShvVmxEptCleanup`: free every page table referenced by
an entry that is nonzero and not a large page (`P = 0`). -/
def cleanupPD (st : EptState) (pdPfn : Nat) : EptState :=
  match heapGet st.heap pdPfn with
  | none => st
  | some t =>
    t.foldl (fun acc e =>
      if e = 0 ∨ entryLargeBit e = 1 then acc else freeOne acc (entryPFN e)) st

/-- The PDPT loop of `ShvVmxEptCleanup`: for every nonzero non-large entry,
free the page tables below the referenced page directory, then the page
directory itself. -/
def cleanupPDPT (st : EptState) (pdptPfn : Nat) : EptState :=
  match heapGet st.heap pdptPfn with
  | none => st
  | some t =>
    t.foldl (fun acc e =>
      if e = 0 ∨ entryLargeBit e = 1 then acc
      else freeOne (cleanupPD acc (entryPFN e)) (entryPFN e)) st

/-- `ShvVmxEptCleanup`: a no-op when the PML4 is `NULL`; otherwise free the
whole tree depth-first and clear the PML4 pointer. -/
def cleanup (st : EptState) : EptState :=
  match st.pml4 with
  | none => st
  | some root =>
    let st1 :=
      match heapGet st.heap root with
      | none => st
      | some t =>
        t.foldl (fun acc e =>
          if e = 0 then acc
          else freeOne (cleanupPDPT acc (entryPFN e)) (entryPFN e)) st
    { freeOne st1 root with pml4 := none }

/-- `ShvVmxEptInitialize`: allocate and zero the PML4 (returning
`STATUS_HV_NO_RESOURCES` on failure), build the identity tables (running
`ShvVmxEptCleanup` and failing if the build fails), then populate the
EPTP. -/
def ShvVmxEptInitialize (ranges : List (Nat × Nat)) (apicBase : Nat) (st : EptState) :
    EptState × Bool :=
  match st.supply with
  | [] => (st, false)
  | p :: rest =>
    let st1 : EptState :=
      { st with
        pml4 := some p,
        heap := st.heap ++ [(p, zeroTable)],
        supply := rest,
        allocCount := st.allocCount + 1 }
    match buildIdentityTables p ranges apicBase st1 with
    | (st2, false) => (cleanup st2, false)
    | (st2, true) => ({ st2 with eptp := eptpSet st2.eptp p }, true)

/-- A state before the engine is used at all: no PML4, no tables, a given
allocator supply and a given prior `ShvVmxEptEptp` value. -/
def scratchState (supply : List Nat) (eptp0 : Nat) : EptState :=
  { pml4 := none, heap := [], supply := supply, allocCount := 0, freeCount := 0,
    eptp := eptp0 }

/-- The state right after a freshly zeroed PML4 has been installed at PFN
`r` (as `ShvVmxEptInitialize` does before building the identity map). -/
def freshEpt (r : Nat) (supply : List Nat) : EptState :=
  { pml4 := some r, heap := [(r, zeroTable)], supply := supply, allocCount := 1,
    freeCount := 0, eptp := 0 }

/-! ## `ShvVmxEptHandleViolation` -/

/-- `SHV_EPT_VIOLATION_ENTRY_MISS(vr)`: `(vr & (7 << 3)) == 0`. -/
def SHV_EPT_VIOLATION_ENTRY_MISS (vr : Nat) : Bool := vr % 64 / 8 = 0

/-- The basic VM-exit reason for an EPT violation.  Modelled from the spec:
the VM-exit dispatcher (outside the given sources) routes EPT-violation
exits, whose architectural basic exit reason is 48, to
`ShvVmxEptHandleViolation` with `VpState->ExitReason` holding that basic
exit reason. -/
def EXIT_REASON_EPT_VIOLATION : Nat := 48

/-- The outcome of `ShvVmxEptHandleViolation`: either the handler took the
mapping path (`ShvVmxEptPopulateIdentityTable` on the faulting GPA), or it
fell through to `NT_ASSERTMSG("Unknown EPT Violation Reason", FALSE)`. -/
inductive ViolationOutcome where
  | mapped
  | fatalAssert
  deriving DecidableEq, Repr

/-- `ShvVmxEptHandleViolation`: reads the faulting guest-physical address,
and if `SHV_EPT_VIOLATION_ENTRY_MISS(VpState->ExitReason)` holds, populates
an identity entry for it; otherwise asserts.  No other action (in
particular no INVEPT) is performed. -/
def ShvVmxEptHandleViolation (st : EptState) (exitReason gpa : Nat) :
    EptState × ViolationOutcome :=
  if SHV_EPT_VIOLATION_ENTRY_MISS exitReason then
    (match st.pml4 with
     | none => st
     | some r => (populate gpa VMX_EPT_PAGE_WALK_LENGTH st r).1, ViolationOutcome.mapped)
  else
    (st, ViolationOutcome.fatalAssert)

/-! ## Walking the finished tree -/

/-- Follow the table walk for address `a` from the table at `pfn` down to
the leaf PTE; yields `0` if the path runs into a zero entry or an unbound
PFN.  (This is the reader's view of the tree; the hardware walker.) -/
def walkLeaf (h : List (Nat × Table)) : Nat → Nat → Nat → Nat
  | 0, _, _ => 0
  | 1, pfn, a =>
    match heapGet h pfn with
    | none => 0
    | some t => t.getD (gpaIndex 1 a) 0
  | l + 2, pfn, a =>
    match heapGet h pfn with
    | none => 0
    | some t =>
      let e := t.getD (gpaIndex (l + 2) a) 0
      if e = 0 then 0 else walkLeaf h (l + 1) (entryPFN e) a

/-- All table PFNs in the (at most `level`-deep) tree rooted at `pfn`:
the root itself plus, for a non-leaf table, the trees below every nonzero
entry. -/
def treePfns (h : List (Nat × Table)) : Nat → Nat → List Nat
  | 0, pfn => [pfn]
  | 1, pfn => [pfn]
  | l + 2, pfn =>
    pfn ::
      (match heapGet h pfn with
       | none => []
       | some t => ((t.filter (fun e => e ≠ 0)).map entryPFN).flatMap (treePfns h (l + 1)))

/-- Well-formedness of the tree rooted at `pfn` at the given level, for the
identity map whose guest-frame prefix at this table is `b`: each table is
bound in the heap with 512 entries; a leaf PTE is zero or the identity leaf
for its slot (`R = W = X = 1`, `MT = WriteBack`, PFN of the slot's frame);
a non-leaf entry is zero or has exactly `R = W = X = 1` and a 41-bit PFN
pointing to a well-formed child. -/
def wfTable (h : List (Nat × Table)) : Nat → Nat → Nat → Prop
  | 0, _, _ => False
  | 1, pfn, b =>
    ∃ t, heapGet h pfn = some t ∧ t.length = 512 ∧
      ∀ i < 512, t.getD i 0 = 0 ∨ t.getD i 0 = mkLeaf (b * 512 + i)
  | l + 2, pfn, b =>
    ∃ t, heapGet h pfn = some t ∧ t.length = 512 ∧
      ∀ i < 512, t.getD i 0 = 0 ∨
        (mkNonLeaf (entryPFN (t.getD i 0)) = t.getD i 0 ∧
          wfTable h (l + 1) (entryPFN (t.getD i 0)) (b * 512 + i))

/-- The part of `a` above the slice indexed at level `l`: bits 47 down to
`12 + 9 * l` of the (48-bit) guest-physical address. -/
def addrHigh (l : Nat) (a : Nat) : Nat := (a % 2 ^ 48) / 2 ^ (12 + 9 * l)

/-- The global invariant of the EPT engine between operations: a live PML4
whose tree is well formed, forms a strict tree (all table PFNs distinct),
and owns exactly the allocated pages; the allocator supply is fresh; the
allocation counters account for the live pages. -/
def GInv (st : EptState) : Prop :=
  ∃ r, st.pml4 = some r ∧
    wfTable st.heap 4 r 0 ∧
    (treePfns st.heap 4 r).Nodup ∧
    (keys st.heap).Perm (treePfns st.heap 4 r) ∧
    st.supply.Nodup ∧
    (∀ p ∈ st.supply, p < 2 ^ 41 ∧ p ∉ keys st.heap) ∧
    st.allocCount = st.freeCount + (keys st.heap).length

/-! ## `ShvUtilAdjustMsr` (shvutil.c) -/

/-- `ShvUtilAdjustMsr(ControlValue, DesiredValue)`:
`DesiredValue &= ControlValue.HighPart; DesiredValue |= ControlValue.LowPart`. -/
def ShvUtilAdjustMsr (controlValue desiredValue : Nat) : Nat :=
  ((desiredValue % 2 ^ 32) &&& ((controlValue / 2 ^ 32) % 2 ^ 32)) |||
    (controlValue % 2 ^ 32)

/-! ## Capability probes (shvvmx.c `ShvVmxProbe`, shvvmxept.c `ShvVmxEptProbe`) -/

/-- The multi-character constant `'uneG'` compared against `cpu_info[1]`. -/
def VENDOR_EBX : Nat := 0x756E6547

/-- The multi-character constant `'Ieni'` compared against `cpu_info[2]`. -/
def VENDOR_ECX : Nat := 0x49656E69

/-- The multi-character constant `'letn'` compared against `cpu_info[3]`. -/
def VENDOR_EDX : Nat := 0x6C65746E

/-- `IA32_FEATURE_CONTROL_MSR_LOCK`.  Modelled from the spec (shv.h is not
among the sources): the lock bit of IA32_FEATURE_CONTROL is bit 0. -/
def IA32_FEATURE_CONTROL_MSR_LOCK : Nat := 1

/-- `IA32_FEATURE_CONTROL_MSR_ENABLE_VMXON_OUTSIDE_SMX`.  Modelled from the
spec (shv.h is not among the sources): the VMXON-outside-SMX enable bit of
IA32_FEATURE_CONTROL is bit 2. -/
def IA32_FEATURE_CONTROL_MSR_ENABLE_VMXON_OUTSIDE_SMX : Nat := 4

/-- `ShvVmxProbe`, on the CPUID leaf-0 registers `ebx0 ecx0 edx0`, the
CPUID leaf-1 `ECX` value `ecx1`, and the `IA32_FEATURE_CONTROL` value.
The vendor test is the source's conjunction
`cpu_info[1] != 'uneG' && cpu_info[2] != 'Ieni' && cpu_info[3] != 'letn'`;
the leaf-1 test is `(cpu_info[2] & 0x20) == FALSE`. -/
def ShvVmxProbe (ebx0 ecx0 edx0 ecx1 featureControl : Nat) : Bool :=
  if ebx0 ≠ VENDOR_EBX ∧ ecx0 ≠ VENDOR_ECX ∧ edx0 ≠ VENDOR_EDX then false
  else if ecx1 &&& 0x20 = 0 then false
  else if featureControl &&& IA32_FEATURE_CONTROL_MSR_LOCK = 0 then false
  else if featureControl &&& IA32_FEATURE_CONTROL_MSR_ENABLE_VMXON_OUTSIDE_SMX = 0 then false
  else true

/-- `ShvVmxEptProbe`, on the values of `IA32_VMX_PROCBASED_CTLS` and
`IA32_VMX_PROCBASED_CTLS2`.  The test of bit `32 + 31` of the former is
read but its `return FALSE` is commented out in the source; only bit
`32 + 1` of the latter decides the result. -/
def ShvVmxEptProbe (procCtls procCtls2 : Nat) : Bool :=
  let _secondaryUsed := procCtls.testBit 63
  if procCtls2.testBit 33 = false then false
  else true

/-- The capability probe of the load path.  Modelled from the spec: the
driver entry (outside the given sources) treats the hardware as supported
exactly when both `ShvVmxProbe` and `ShvVmxEptProbe` succeed. -/
def ShvProbeSupported (ebx0 ecx0 edx0 ecx1 featureControl procCtls procCtls2 : Nat) :
    Bool :=
  ShvVmxProbe ebx0 ecx0 edx0 ecx1 featureControl && ShvVmxEptProbe procCtls procCtls2

/-- The capability probe as the claim states it (for comparison with
`ShvProbeSupported`): the leaf-0 vendor string equals GenuineIntel
(`EBX = 'uneG'`, `EDX = 'Ieni'`, `ECX = 'letn'`), CPUID.1:ECX bit 5 (VMX)
set, CPUID.1:ECX bit 31 (hypervisor present) clear, IA32_FEATURE_CONTROL
locked with VMXON-outside-SMX enabled, and bit 33 of
IA32_VMX_PROCBASED_CTLS2 (EPT allowed-one) set. -/
def ClaimProbe (ebx0 ecx0 edx0 ecx1 featureControl procCtls procCtls2 : Nat) : Bool :=
  let _ := procCtls
  (ebx0 == VENDOR_EBX) && (edx0 == VENDOR_ECX) && (ecx0 == VENDOR_EDX) &&
    ecx1.testBit 5 && !ecx1.testBit 31 &&
    featureControl.testBit 0 && featureControl.testBit 2 && procCtls2.testBit 33

/-! ## VMX root entry (shvvmx.c `ShvVmxEnterRootModeOnVp`, `ShvVmxLaunchOnVp`) -/

/-- `VMX_BASIC_VMCS_SIZE_MASK`.  Modelled from the spec (shv.h is not among
the sources): the VMCS region size is bits 44:32 of IA32_VMX_BASIC. -/
def VMX_BASIC_VMCS_SIZE_MASK : Nat := 0x1FFF00000000

/-- `VMX_BASIC_MEMORY_TYPE_MASK`.  Modelled from the spec (shv.h is not
among the sources): the VMCS memory type is bits 53:50 of IA32_VMX_BASIC. -/
def VMX_BASIC_MEMORY_TYPE_MASK : Nat := 0x3C000000000000

/-- `VMX_BASIC_DEFAULT1_ZERO`.  Modelled from the spec (shv.h is not among
the sources): bit 55 of IA32_VMX_BASIC reports that the true capability
MSRs may be used. -/
def VMX_BASIC_DEFAULT1_ZERO : Nat := 2 ^ 55

/-- `MTRR_TYPE_WB` -/
def MTRR_TYPE_WB : Nat := 6

/-- The outcomes of the VMX instructions executed by the launch sequence,
an input of the control flow (hardware may fail any of them). -/
structure VmxOps where
  vmxonOk : Bool
  vmclearOk : Bool
  vmptrldOk : Bool
  vmlaunchOk : Bool
  deriving DecidableEq, Repr

/-- The observable result of `ShvVmxEnterRootModeOnVp`: the returned
`BOOLEAN`, and whether the CPU is left in VMX operation (i.e. a successful
VMXON has been executed with no subsequent VMXOFF). -/
structure RootModeResult where
  success : Bool
  inVmxOperation : Bool
  deriving DecidableEq, Repr

/-- `ShvVmxEnterRootModeOnVp`, as control flow over the IA32_VMX_BASIC
value and the instruction outcomes: the three checks (VMCS size within a
page, writeback VMCS memory type, true-MSR support), then VMXON, VMCLEAR
and VMPTRLD, each failure returning `FALSE` immediately.  No path of this
function executes VMXOFF. -/
def ShvVmxEnterRootModeOnVp (msrBasic : Nat) (ops : VmxOps) : RootModeResult :=
  if (msrBasic &&& VMX_BASIC_VMCS_SIZE_MASK) >>> 32 > PAGE_SIZE then ⟨false, false⟩
  else if (msrBasic &&& VMX_BASIC_MEMORY_TYPE_MASK) >>> 50 ≠ MTRR_TYPE_WB then ⟨false, false⟩
  else if msrBasic &&& VMX_BASIC_DEFAULT1_ZERO = 0 then ⟨false, false⟩
  else if !ops.vmxonOk then ⟨false, false⟩
  else if !ops.vmclearOk then ⟨false, true⟩
  else if !ops.vmptrldOk then ⟨false, true⟩
  else ⟨true, true⟩

/-- The three pre-VMXON checks of `ShvVmxEnterRootModeOnVp` as one
predicate on the IA32_VMX_BASIC value. -/
def vmxBasicChecksOk (msrBasic : Nat) : Bool :=
  decide (¬(msrBasic &&& VMX_BASIC_VMCS_SIZE_MASK) >>> 32 > PAGE_SIZE) &&
  decide ((msrBasic &&& VMX_BASIC_MEMORY_TYPE_MASK) >>> 50 = MTRR_TYPE_WB) &&
  decide (¬msrBasic &&& VMX_BASIC_DEFAULT1_ZERO = 0)

/-- The observable result of `ShvVmxLaunchOnVp`: whether the VMCS was
launched (the guest is running), and whether the CPU is left in VMX
operation when control returns from the function (on the successful launch
the CPU of course stays in VMX operation, running the guest). -/
structure LaunchResult where
  launched : Bool
  inVmxOperation : Bool
  deriving DecidableEq, Repr

/-- `ShvVmxLaunchOnVp`: enter root mode, then set up the VMCS and VMLAUNCH;
if VMLAUNCH falls through, execute VMXOFF.  When `ShvVmxEnterRootModeOnVp`
returns `FALSE` the function simply returns, leaving the CPU in whatever
VMX state the failed entry left it. -/
def ShvVmxLaunchOnVp (msrBasic : Nat) (ops : VmxOps) : LaunchResult :=
  let r := ShvVmxEnterRootModeOnVp msrBasic ops
  if r.success then
    if ops.vmlaunchOk then ⟨true, true⟩
    else ⟨false, false⟩
  else
    ⟨false, r.inVmxOperation⟩

/-- The combined specification of one `ShvVmxEptPopulateIdentityTable` call at
level `l` on the subtree rooted at `tpfn` (whose identity prefix is
`addrHigh l addr`): accounting of the consumed allocator supply, preservation
of well-formedness and strict-tree shape, the footprint of the heap
modification, the effect on the leaf of `addr` and of all other addresses,
and idempotence of an immediate repetition. -/
def PopConcl (st st' : EptState) (ok : Bool) (l tpfn addr : Nat) : Prop :=
  ∃ used : List Nat,
    st.supply = used ++ st'.supply ∧
    keys st'.heap = keys st.heap ++ used ∧
    st'.allocCount = st.allocCount + used.length ∧
    st'.freeCount = st.freeCount ∧
    st'.pml4 = st.pml4 ∧
    st'.eptp = st.eptp ∧
    wfTable st'.heap l tpfn (addrHigh l addr) ∧
    (treePfns st'.heap l tpfn).Perm (treePfns st.heap l tpfn ++ used) ∧
    (∀ q, q ∉ treePfns st.heap l tpfn → q ∉ used →
      heapGet st'.heap q = heapGet st.heap q) ∧
    (ok = true → walkLeaf st'.heap l tpfn addr =
      (if walkLeaf st.heap l tpfn addr = 0 then mkLeaf (addr / 4096)
       else walkLeaf st.heap l tpfn addr)) ∧
    (ok = false → st'.supply = []) ∧
    (∀ a2, a2 < 2 ^ 48 → addrHigh l a2 = addrHigh l addr →
      a2 / 4096 ≠ addr / 4096 →
      walkLeaf st'.heap l tpfn a2 = walkLeaf st.heap l tpfn a2) ∧
    populate addr l st' tpfn = (st', ok)

/-! ## Verification views: the cleanup free order and the mapped frame set -/

/-- Free a list of table PFNs in order (`MmFreeContiguousMemory` per PFN). -/
def freeAll (st : EptState) (ps : List Nat) : EptState := ps.foldl freeOne st

/-- Remove a list of bindings in order. -/
def delAll (h : List (Nat × Table)) (ps : List Nat) : List (Nat × Table) :=
  ps.foldl heapDel h

/-- The test `ShvVmxEptCleanup`'s PDPT and PD loops apply to an entry
before freeing the table it references: nonzero and not a large page. -/
def liveEntry (e : Nat) : Bool := !(e == 0 || entryLargeBit e == 1)

/-- The PFNs `ShvVmxEptCleanup`'s PD loop frees below the table at `pd`,
in freeing order. -/
def pdFrees (h : List (Nat × Table)) (pd : Nat) : List Nat :=
  match heapGet h pd with
  | none => []
  | some t => (t.filter liveEntry).map entryPFN

/-- The PFNs `ShvVmxEptCleanup`'s PDPT loop frees below the table at
`pdpt`, in freeing order. -/
def pdptFrees (h : List (Nat × Table)) (pdpt : Nat) : List Nat :=
  match heapGet h pdpt with
  | none => []
  | some t =>
    t.flatMap (fun e =>
      if liveEntry e then pdFrees h (entryPFN e) ++ [entryPFN e] else [])

/-- The PFNs `ShvVmxEptCleanup`'s outer loop frees below the PML4 at
`root`, in freeing order (the PML4 itself excluded). -/
def rootFrees (h : List (Nat × Table)) (root : Nat) : List Nat :=
  match heapGet h root with
  | none => []
  | some t =>
    t.flatMap (fun e =>
      if e = 0 then [] else pdptFrees h (entryPFN e) ++ [entryPFN e])

/-- The 4 KiB guest-physical frames the claim requires to be
identity-mapped after `ShvVmxEptInitialize`: every frame of every listed
physical-memory range, plus the frame of the (masked) APIC base. -/
def rangeFrames (ranges : List (Nat × Nat)) (apicBase : Nat) (f : Nat) : Bool :=
  ranges.any (fun pr => decide (pr.1 / 4096 ≤ f ∧ f < pr.1 / 4096 + pr.2 / 4096)) ||
    f == apicBase / 4096

/-- The reader's view of the mapped set: exactly the frames satisfying `F`
(among the 2^36 frames of the 48-bit guest-physical space) reach a nonzero
leaf PTE on the walk from `root`. -/
def mappedIn (h : List (Nat × Table)) (root : Nat) (F : Nat → Prop) : Prop :=
  ∀ f, f < 2 ^ 36 → (walkLeaf h 4 root (f * 4096) ≠ 0 ↔ F f)

/-! ## Heap lemmas -/

theorem keys_heapSet (h : List (Nat × Table)) (p : Nat) (t : Table) :
    keys (heapSet h p t) = keys h := by
  induction h with
  | nil => rfl
  | cons kv r ih =>
    obtain ⟨k, tk⟩ := kv
    by_cases hk : k = p <;> simp [heapSet, keys, hk] <;> simpa [keys] using ih

theorem keys_append (h h' : List (Nat × Table)) :
    keys (h ++ h') = keys h ++ keys h' := by
  simp [keys]

theorem heapGet_eq_none_of_not_mem {h : List (Nat × Table)} {q : Nat}
    (hq : q ∉ keys h) : heapGet h q = none := by
  induction h with
  | nil => rfl
  | cons kv r ih =>
    obtain ⟨k, tk⟩ := kv
    simp only [keys, List.map_cons, List.mem_cons] at hq
    push_neg at hq
    simp [heapGet, Ne.symm hq.1, ih hq.2]

theorem mem_keys_of_heapGet {h : List (Nat × Table)} {q : Nat} {t : Table}
    (hq : heapGet h q = some t) : q ∈ keys h := by
  by_contra hc
  rw [heapGet_eq_none_of_not_mem hc] at hq
  exact Option.noConfusion hq

theorem heapGet_append_of_not_mem {h h' : List (Nat × Table)} {q : Nat}
    (hq : q ∉ keys h) : heapGet (h ++ h') q = heapGet h' q := by
  induction h with
  | nil => rfl
  | cons kv r ih =>
    obtain ⟨k, tk⟩ := kv
    simp only [keys, List.map_cons, List.mem_cons] at hq
    push_neg at hq
    simp [heapGet, Ne.symm hq.1]
    exact ih hq.2

theorem heapGet_append_left {h h' : List (Nat × Table)} {q : Nat} {t : Table}
    (hq : heapGet h q = some t) : heapGet (h ++ h') q = some t := by
  induction h with
  | nil => exact Option.noConfusion hq
  | cons kv r ih =>
    obtain ⟨k, tk⟩ := kv
    by_cases hk : k = q
    · simpa [heapGet, hk] using hq
    · simp only [heapGet, if_neg hk] at hq
      simpa [heapGet, hk] using ih hq

theorem heapGet_heapSet_self {h : List (Nat × Table)} {p : Nat} (t : Table)
    (hp : p ∈ keys h) : heapGet (heapSet h p t) p = some t := by
  induction h with
  | nil => simp [keys] at hp
  | cons kv r ih =>
    obtain ⟨k, tk⟩ := kv
    by_cases hk : k = p
    · simp [heapSet, heapGet, hk]
    · simp only [keys, List.map_cons, List.mem_cons] at hp
      rcases hp with hp | hp
      · exact absurd hp.symm hk
      · simp [heapSet, heapGet, hk, ih hp]

theorem heapGet_heapSet_ne {h : List (Nat × Table)} {p q : Nat} (t : Table)
    (hpq : q ≠ p) : heapGet (heapSet h p t) q = heapGet h q := by
  induction h with
  | nil => rfl
  | cons kv r ih =>
    obtain ⟨k, tk⟩ := kv
    by_cases hk : k = p
    · subst hk
      simp [heapSet, heapGet, Ne.symm hpq]
    · by_cases hkq : k = q <;> simp [heapSet, heapGet, hk, hkq, hpq, ih]

theorem heapGet_heapDel_ne {h : List (Nat × Table)} {p q : Nat}
    (hpq : q ≠ p) : heapGet (heapDel h p) q = heapGet h q := by
  induction h with
  | nil => rfl
  | cons kv r ih =>
    obtain ⟨k, tk⟩ := kv
    by_cases hk : k = p
    · subst hk
      simp [heapDel, heapGet, Ne.symm hpq]
    · by_cases hkq : k = q <;> simp [heapDel, heapGet, hk, hkq, hpq, ih]

/-! ## `List.getD`/`List.set` lemmas -/

theorem getD_set_self : ∀ (l : List Nat) (i : Nat) (a : Nat), i < l.length →
    (l.set i a).getD i 0 = a
  | [], i, a, h => absurd h (by simp)
  | _ :: _, 0, a, _ => rfl
  | _ :: xs, i + 1, a, h =>
    getD_set_self xs i a (by simpa using h)

theorem getD_set_ne : ∀ (l : List Nat) (i j : Nat) (a : Nat), i ≠ j →
    (l.set i a).getD j 0 = l.getD j 0
  | [], _, _, _, _ => rfl
  | _ :: _, 0, 0, _, h => absurd rfl h
  | _ :: _, 0, _ + 1, _, _ => rfl
  | _ :: _, _ + 1, 0, _, _ => rfl
  | _ :: xs, i + 1, j + 1, a, h =>
    getD_set_ne xs i j a (fun hc => h (by omega))

theorem getD_mem : ∀ (l : List Nat) (i : Nat), i < l.length → l.getD i 0 ∈ l
  | [], i, h => absurd h (by simp)
  | x :: _, 0, _ => List.mem_cons_self x _
  | _ :: xs, i + 1, h =>
    List.mem_cons_of_mem _ (getD_mem xs i (by simpa using h))

theorem lt_length_of_getD_ne : ∀ (l : List Nat) (i : Nat), l.getD i 0 ≠ 0 →
    i < l.length
  | [], i, h => absurd rfl h
  | _ :: _, 0, _ => by simp
  | _ :: xs, i + 1, h => by
    have := lt_length_of_getD_ne xs i h
    simpa using Nat.succ_lt_succ this

theorem exists_index_of_mem {l : List Nat} {e : Nat} (he : e ∈ l) :
    ∃ i, i < l.length ∧ l.getD i 0 = e := by
  induction l with
  | nil => simp at he
  | cons x xs ih =>
    rcases List.mem_cons.1 he with h | h
    · exact ⟨0, by simp, h.symm⟩
    · obtain ⟨i, hi, hg⟩ := ih h
      exact ⟨i + 1, by simpa using Nat.succ_lt_succ hi, hg⟩

/-! ## Entry-encoding lemmas -/

theorem mkLeaf_ne_zero (p : Nat) : mkLeaf p ≠ 0 := by
  unfold mkLeaf WriteBack
  omega

theorem mkNonLeaf_ne_zero (p : Nat) : mkNonLeaf p ≠ 0 := by
  unfold mkNonLeaf
  omega

theorem entryPFN_mkNonLeaf {p : Nat} (hp : p < 2 ^ 41) :
    entryPFN (mkNonLeaf p) = p := by
  unfold entryPFN mkNonLeaf
  omega

theorem mkNonLeaf_entryPFN_self {p : Nat} (hp : p < 2 ^ 41) :
    mkNonLeaf (entryPFN (mkNonLeaf p)) = mkNonLeaf p := by
  rw [entryPFN_mkNonLeaf hp]

theorem entryLargeBit_mkNonLeaf (p : Nat) : entryLargeBit (mkNonLeaf p) = 0 := by
  unfold entryLargeBit mkNonLeaf
  omega

/-! ## Address-decomposition lemmas -/

theorem mod_pow_div_mod (a s k j : Nat) (hk : j ≤ k) :
    (a % 2 ^ (s + k)) / 2 ^ s % 2 ^ j = a / 2 ^ s % 2 ^ j := by
  rw [pow_add, Nat.mod_mul_right_div_self, Nat.mod_mod_of_dvd _ (pow_dvd_pow 2 hk)]

theorem gpaIndex_lt (l a : Nat) : gpaIndex l a < 512 := by
  unfold gpaIndex
  split <;> exact Nat.mod_lt _ (by norm_num)

theorem gpaIndex_eq_addrHigh (l a : Nat) (h1 : 1 ≤ l) (h4 : l ≤ 4) :
    gpaIndex l a = addrHigh (l - 1) a % 512 := by
  interval_cases l
  · show (a / 2 ^ 12) % 512 = (a % 2 ^ 48) / 2 ^ 12 % 512
    rw [show (48 : Nat) = 12 + 36 from rfl,
      show (512 : Nat) = 2 ^ 9 from rfl, mod_pow_div_mod a 12 36 9 (by norm_num)]
  · show (a / 2 ^ 21) % 512 = (a % 2 ^ 48) / 2 ^ 21 % 512
    rw [show (48 : Nat) = 21 + 27 from rfl,
      show (512 : Nat) = 2 ^ 9 from rfl, mod_pow_div_mod a 21 27 9 (by norm_num)]
  · show (a / 2 ^ 30) % 512 = (a % 2 ^ 48) / 2 ^ 30 % 512
    rw [show (48 : Nat) = 30 + 18 from rfl,
      show (512 : Nat) = 2 ^ 9 from rfl, mod_pow_div_mod a 30 18 9 (by norm_num)]
  · show (a / 2 ^ 39) % 512 = (a % 2 ^ 48) / 2 ^ 39 % 512
    rw [show (48 : Nat) = 39 + 9 from rfl,
      show (512 : Nat) = 2 ^ 9 from rfl, mod_pow_div_mod a 39 9 9 (by norm_num)]

theorem addrHigh_succ_div (l a : Nat) : addrHigh (l + 1) a = addrHigh l a / 2 ^ 9 := by
  unfold addrHigh
  rw [Nat.div_div_eq_div_mul, ← pow_add,
    show 12 + 9 * l + 9 = 12 + 9 * (l + 1) from by omega]

theorem addrHigh_four (a : Nat) : addrHigh 4 a = 0 := by
  unfold addrHigh
  exact Nat.div_eq_of_lt (lt_of_lt_of_le (Nat.mod_lt _ (by norm_num)) (by norm_num))

theorem base_step (L a : Nat) (h2 : 2 ≤ L) (h4 : L ≤ 4) :
    addrHigh L a * 512 + gpaIndex L a = addrHigh (L - 1) a := by
  rw [gpaIndex_eq_addrHigh L a (by omega) h4]
  have hd : addrHigh L a = addrHigh (L - 1) a / 2 ^ 9 := by
    have h := addrHigh_succ_div (L - 1) a
    rw [show L - 1 + 1 = L from by omega] at h
    exact h
  rw [hd]
  have h9 : (2 : Nat) ^ 9 = 512 := by norm_num
  rw [h9]
  omega

theorem leaf_base (a : Nat) (ha : a < 2 ^ 48) :
    addrHigh 1 a * 512 + gpaIndex 1 a = a / 4096 := by
  rw [gpaIndex_eq_addrHigh 1 a (by norm_num) (by norm_num)]
  have hd : addrHigh 1 a = addrHigh 0 a / 2 ^ 9 := addrHigh_succ_div 0 a
  rw [hd]
  have h0 : addrHigh 0 a = a / 4096 := by
    unfold addrHigh
    rw [Nat.mod_eq_of_lt ha]
    norm_num
  rw [h0]
  have h9 : (2 : Nat) ^ 9 = 512 := by norm_num
  rw [h9]
  omega

theorem gpaIndex_eq_of_frame {a b : Nat} (hab : a / 4096 = b / 4096) (l : Nat) :
    gpaIndex l a = gpaIndex l b := by
  have h39 : ∀ x : Nat, x / 2 ^ 39 = x / 4096 / 2 ^ 27 := fun x => by
    rw [Nat.div_div_eq_div_mul]
    norm_num
  have h30 : ∀ x : Nat, x / 2 ^ 30 = x / 4096 / 2 ^ 18 := fun x => by
    rw [Nat.div_div_eq_div_mul]
    norm_num
  have h21 : ∀ x : Nat, x / 2 ^ 21 = x / 4096 / 2 ^ 9 := fun x => by
    rw [Nat.div_div_eq_div_mul]
    norm_num
  have h12 : ∀ x : Nat, x / 2 ^ 12 = x / 4096 := fun x => by norm_num
  unfold gpaIndex
  split <;>
    first
      | rw [h39 a, h39 b, hab]
      | rw [h30 a, h30 b, hab]
      | rw [h21 a, h21 b, hab]
      | rw [h12 a, h12 b, hab]

theorem walkLeaf_eq_of_frame (h : List (Nat × Table)) :
    ∀ (l : Nat) (pfn : Nat) {a b : Nat}, a / 4096 = b / 4096 →
    walkLeaf h l pfn a = walkLeaf h l pfn b
  | 0, _, _, _, _ => rfl
  | 1, pfn, a, b, hab => by
    unfold walkLeaf
    rw [gpaIndex_eq_of_frame hab]
  | l + 2, pfn, a, b, hab => by
    unfold walkLeaf
    cases heapGet h pfn with
    | none => rfl
    | some t =>
      simp only
      rw [gpaIndex_eq_of_frame hab]
      split
      · rfl
      · exact walkLeaf_eq_of_frame h (l + 1) _ hab

/-! ## Tree-structure lemmas -/

theorem self_mem_treePfns (h : List (Nat × Table)) (l pfn : Nat) :
    pfn ∈ treePfns h l pfn := by
  match l with
  | 0 => simp [treePfns]
  | 1 => simp [treePfns]
  | l + 2 => simp [treePfns]

theorem treePfns_child_subset {h : List (Nat × Table)} {pfn : Nat} {t : Table}
    (hget : heapGet h pfn = some t) {e : Nat}
    (he : e ∈ t.filter (fun e => e ≠ 0)) (l : Nat) :
    treePfns h (l + 1) (entryPFN e) ⊆ treePfns h (l + 2) pfn := by
  intro q hq
  unfold treePfns
  rw [hget]
  simp only [List.mem_cons]
  right
  exact List.mem_flatMap.2 ⟨entryPFN e, List.mem_map_of_mem _ he, hq⟩

theorem mem_filter_ne_zero {t : Table} {i : Nat} (hi : i < t.length)
    (hne : t.getD i 0 ≠ 0) : t.getD i 0 ∈ t.filter (fun e => e ≠ 0) := by
  refine List.mem_filter.2 ⟨getD_mem t i hi, ?_⟩
  simpa using hne

theorem flatMap_congr {f g : Nat → List Nat} :
    ∀ (cs : List Nat), (∀ e ∈ cs, f e = g e) → cs.flatMap f = cs.flatMap g
  | [], _ => rfl
  | c :: cs, hc => by
    simp only [List.flatMap_cons]
    rw [hc c (by simp), flatMap_congr cs fun e he => hc e (List.mem_cons_of_mem _ he)]

theorem treePfns_congr : ∀ (l : Nat) {h h' : List (Nat × Table)} (pfn : Nat),
    (∀ q ∈ treePfns h l pfn, heapGet h' q = heapGet h q) →
    treePfns h' l pfn = treePfns h l pfn
  | 0, _, _, _, _ => rfl
  | 1, _, _, _, _ => rfl
  | l + 2, h, h', pfn, hag => by
    have hpfn : heapGet h' pfn = heapGet h pfn := hag pfn (self_mem_treePfns h (l + 2) pfn)
    unfold treePfns
    rw [hpfn]
    cases hget : heapGet h pfn with
    | none => rfl
    | some t =>
      simp only [List.cons.injEq, true_and]
      refine flatMap_congr _ ?_
      intro c hc
      obtain ⟨e, he, rfl⟩ := List.mem_map.1 hc
      exact treePfns_congr (l + 1) (entryPFN e) fun q hq =>
        hag q (treePfns_child_subset hget he l hq)

theorem wfTable_congr : ∀ (l : Nat) {h h' : List (Nat × Table)} (pfn b : Nat),
    wfTable h l pfn b →
    (∀ q ∈ treePfns h l pfn, heapGet h' q = heapGet h q) →
    wfTable h' l pfn b
  | 0, _, _, _, _, hwf, _ => absurd hwf id
  | 1, h, h', pfn, b, hwf, hag => by
    obtain ⟨t, hget, hlen, hent⟩ := hwf
    exact ⟨t, by rw [hag pfn (self_mem_treePfns h 1 pfn)]; exact hget, hlen, hent⟩
  | l + 2, h, h', pfn, b, hwf, hag => by
    obtain ⟨t, hget, hlen, hent⟩ := hwf
    refine ⟨t, by rw [hag pfn (self_mem_treePfns h (l + 2) pfn)]; exact hget, hlen, ?_⟩
    intro i hi
    rcases hent i hi with hz | ⟨hmk, hwfc⟩
    · exact Or.inl hz
    · refine Or.inr ⟨hmk, ?_⟩
      have hne : t.getD i 0 ≠ 0 := fun hc => by
        rw [hc] at hmk
        exact mkNonLeaf_ne_zero _ hmk
      have hmem := mem_filter_ne_zero (hlen ▸ hi) hne
      exact wfTable_congr (l + 1) _ _ hwfc fun q hq =>
        hag q (treePfns_child_subset hget hmem l hq)

theorem walkLeaf_congr : ∀ (l : Nat) {h h' : List (Nat × Table)} (pfn a : Nat),
    (∀ q ∈ treePfns h l pfn, heapGet h' q = heapGet h q) →
    walkLeaf h' l pfn a = walkLeaf h l pfn a
  | 0, _, _, _, _, _ => rfl
  | 1, h, h', pfn, a, hag => by
    unfold walkLeaf
    rw [hag pfn (self_mem_treePfns h 1 pfn)]
  | l + 2, h, h', pfn, a, hag => by
    unfold walkLeaf
    rw [hag pfn (self_mem_treePfns h (l + 2) pfn)]
    cases hget : heapGet h pfn with
    | none => rfl
    | some t =>
      simp only
      split
      · rfl
      · rename_i hne
        have hmem := mem_filter_ne_zero (lt_length_of_getD_ne t _ hne) hne
        exact walkLeaf_congr (l + 1) _ a fun q hq =>
          hag q (treePfns_child_subset hget hmem l hq)

theorem treePfns_subset_keys : ∀ (l : Nat) {h : List (Nat × Table)} (pfn b : Nat),
    wfTable h l pfn b → treePfns h l pfn ⊆ keys h
  | 0, _, _, _, hwf => absurd hwf id
  | 1, h, pfn, b, hwf => by
    obtain ⟨t, hget, -, -⟩ := hwf
    intro q hq
    simp only [treePfns, List.mem_singleton] at hq
    subst hq
    exact mem_keys_of_heapGet hget
  | l + 2, h, pfn, b, hwf => by
    obtain ⟨t, hget, hlen, hent⟩ := hwf
    intro q hq
    unfold treePfns at hq
    rw [hget] at hq
    simp only [List.mem_cons] at hq
    rcases hq with rfl | hq
    · exact mem_keys_of_heapGet hget
    · obtain ⟨c, hc, hq⟩ := List.mem_flatMap.1 hq
      obtain ⟨e, he, rfl⟩ := List.mem_map.1 hc
      have hne : e ≠ 0 := by
        have := (List.mem_filter.1 he).2
        simpa using this
      obtain ⟨i, hi, hie⟩ := exists_index_of_mem (List.mem_filter.1 he).1
      rcases hent i (hlen ▸ hi) with hz | ⟨-, hwfc⟩
      · rw [hie] at hz
        exact absurd hz hne
      · rw [← hie] at hq
        exact treePfns_subset_keys (l + 1) _ _ hwfc hq

theorem child_tree_nodup {h : List (Nat × Table)} {pfn : Nat} {t : Table} {l : Nat}
    (hget : heapGet h pfn = some t)
    (hnd : (treePfns h (l + 2) pfn).Nodup) {e : Nat}
    (he : e ∈ t.filter (fun e => e ≠ 0)) :
    (treePfns h (l + 1) (entryPFN e)).Nodup := by
  unfold treePfns at hnd
  rw [hget] at hnd
  have hnd2 := hnd.of_cons
  exact ((List.nodup_flatMap.1 hnd2).1 (entryPFN e) (List.mem_map_of_mem _ he))

theorem root_not_mem_child_tree {h : List (Nat × Table)} {pfn : Nat} {t : Table}
    {l : Nat} (hget : heapGet h pfn = some t)
    (hnd : (treePfns h (l + 2) pfn).Nodup) {e : Nat}
    (he : e ∈ t.filter (fun e => e ≠ 0)) :
    pfn ∉ treePfns h (l + 1) (entryPFN e) := by
  intro hc
  unfold treePfns at hnd
  rw [hget] at hnd
  have := (List.nodup_cons.1 hnd).1
  exact this (List.mem_flatMap.2 ⟨entryPFN e, List.mem_map_of_mem _ he, hc⟩)

theorem sibling_disjoint_aux :
    ∀ (es : List Nat) (f : Nat → List Nat), (∀ c, c ∈ f c) →
    (((es.filter (fun e => e ≠ 0)).map entryPFN).flatMap f).Nodup →
    ∀ i j, i < es.length → j < es.length → i ≠ j →
    es.getD i 0 ≠ 0 → es.getD j 0 ≠ 0 →
    ∀ q, q ∈ f (entryPFN (es.getD i 0)) → q ∈ f (entryPFN (es.getD j 0)) → False := by
  intro es
  induction es with
  | nil =>
    intro f hf hnd i j hi
    simp at hi
  | cons e es ih =>
    intro f hf hnd i j hi hj hij hei hej q hqi hqj
    by_cases hez : e = 0
    · subst hez
      match i, j with
      | 0, _ => exact hei rfl
      | _ + 1, 0 => exact hej rfl
      | i + 1, j + 1 =>
        have hnd' : (((es.filter (fun e => e ≠ 0)).map entryPFN).flatMap f).Nodup := by
          simpa using hnd
        exact ih f hf hnd' i j (by simpa using hi) (by simpa using hj)
          (fun hc => hij (by omega)) hei hej q hqi hqj
    · have hfe : (e :: es).filter (fun e => e ≠ 0) =
          e :: es.filter (fun e => e ≠ 0) := by
        simp [List.filter_cons, hez]
      rw [hfe] at hnd
      simp only [List.map_cons, List.flatMap_cons] at hnd
      have hdisj := List.disjoint_of_nodup_append hnd
      match i, j with
      | 0, 0 => exact hij rfl
      | 0, j + 1 =>
        refine hdisj hqi (List.mem_flatMap.2 ⟨entryPFN (es.getD j 0), ?_, hqj⟩)
        exact List.mem_map_of_mem _ (mem_filter_ne_zero (by simpa using hj) hej)
      | i + 1, 0 =>
        refine hdisj hqj (List.mem_flatMap.2 ⟨entryPFN (es.getD i 0), ?_, hqi⟩)
        exact List.mem_map_of_mem _ (mem_filter_ne_zero (by simpa using hi) hei)
      | i + 1, j + 1 =>
        exact ih f hf (hnd.of_append_right) i j (by simpa using hi) (by simpa using hj)
          (fun hc => hij (by omega)) hei hej q hqi hqj

theorem sibling_disjoint {h : List (Nat × Table)} {pfn : Nat} {t : Table} {l : Nat}
    (hget : heapGet h pfn = some t)
    (hnd : (treePfns h (l + 2) pfn).Nodup) {i j : Nat}
    (hi : i < t.length) (hj : j < t.length) (hij : i ≠ j)
    (hei : t.getD i 0 ≠ 0) (hej : t.getD j 0 ≠ 0) :
    ∀ q, q ∈ treePfns h (l + 1) (entryPFN (t.getD i 0)) →
      q ∈ treePfns h (l + 1) (entryPFN (t.getD j 0)) → False := by
  unfold treePfns at hnd
  rw [hget] at hnd
  exact sibling_disjoint_aux t (treePfns h (l + 1))
    (fun c => self_mem_treePfns h (l + 1) c) hnd.of_cons i j hi hj hij hei hej

/-! ## Fresh-table lemmas -/

theorem heapGet_of_mem_keys {h : List (Nat × Table)} {q : Nat} (hq : q ∈ keys h) :
    ∃ t, heapGet h q = some t := by
  induction h with
  | nil => simp [keys] at hq
  | cons kv r ih =>
    obtain ⟨k, tk⟩ := kv
    by_cases hk : k = q
    · exact ⟨tk, by simp [heapGet, hk]⟩
    · simp only [keys, List.map_cons, List.mem_cons] at hq
      rcases hq with rfl | hq
      · exact absurd rfl hk
      · obtain ⟨t, ht⟩ := ih hq
        exact ⟨t, by simp [heapGet, hk, ht]⟩

theorem heapGet_append_single_ne {h : List (Nat × Table)} {p q : Nat} {z : Table}
    (hpq : q ≠ p) : heapGet (h ++ [(p, z)]) q = heapGet h q := by
  induction h with
  | nil => simp [heapGet, Ne.symm hpq]
  | cons kv r ih =>
    obtain ⟨k, tk⟩ := kv
    by_cases hk : k = q <;> simp [heapGet, hk, ih]

theorem replicate_getD (n i : Nat) : (List.replicate n (0 : Nat)).getD i 0 = 0 := by
  induction n generalizing i with
  | zero => rfl
  | succ n ih =>
    cases i with
    | zero => rfl
    | succ i =>
      rw [List.replicate_succ]
      exact ih i

theorem zeroTable_getD (i : Nat) : zeroTable.getD i 0 = 0 := replicate_getD 512 i

theorem zeroTable_length : zeroTable.length = 512 := by
  unfold zeroTable
  rw [List.length_replicate]

theorem replicate_filter : ∀ n : Nat,
    (List.replicate n (0 : Nat)).filter (fun e => e ≠ 0) = []
  | 0 => rfl
  | n + 1 => by
    rw [List.replicate_succ, List.filter_cons]
    simp [replicate_filter n]

theorem zeroTable_filter : zeroTable.filter (fun e => e ≠ 0) = [] :=
  replicate_filter 512

theorem zeroTable_getElem (i : Nat) : (zeroTable[i]?).getD 0 = 0 := by
  rw [← List.getD_eq_getElem?_getD]
  exact zeroTable_getD i

theorem wfTable_zeroTable (l : Nat) {h : List (Nat × Table)} (pfn b : Nat)
    (hget : heapGet h pfn = some zeroTable) (hl : 1 ≤ l) : wfTable h l pfn b := by
  match l with
  | 1 => exact ⟨zeroTable, hget, zeroTable_length, fun i _ => Or.inl (zeroTable_getD i)⟩
  | l + 2 => exact ⟨zeroTable, hget, zeroTable_length, fun i _ => Or.inl (zeroTable_getD i)⟩

theorem treePfns_zeroTable (l : Nat) {h : List (Nat × Table)} (pfn : Nat)
    (hget : heapGet h pfn = some zeroTable) : treePfns h l pfn = [pfn] := by
  match l with
  | 0 => rfl
  | 1 => rfl
  | l + 2 =>
    unfold treePfns
    rw [hget]
    show pfn :: ((zeroTable.filter (fun e => e ≠ 0)).map entryPFN).flatMap
      (treePfns h (l + 1)) = [pfn]
    rw [zeroTable_filter]
    rfl

theorem walkLeaf_zeroTable (l : Nat) {h : List (Nat × Table)} (pfn a : Nat)
    (hget : heapGet h pfn = some zeroTable) : walkLeaf h l pfn a = 0 := by
  match l with
  | 0 => rfl
  | 1 =>
    unfold walkLeaf
    rw [hget]
    exact zeroTable_getD _
  | l + 2 =>
    unfold walkLeaf
    rw [hget]
    show (if zeroTable.getD (gpaIndex (l + 2) a) 0 = 0 then 0
      else walkLeaf h (l + 1) (entryPFN (zeroTable.getD (gpaIndex (l + 2) a) 0)) a) = 0
    rw [if_pos (zeroTable_getD _)]

theorem set_filter_perm : ∀ (t : List Nat) (i v : Nat), i < t.length →
    t.getD i 0 = 0 → v ≠ 0 →
    ((t.set i v).filter (fun e => e ≠ 0)).Perm (v :: t.filter (fun e => e ≠ 0))
  | [], i, v, hi, _, _ => absurd hi (by simp)
  | e :: rest, 0, v, _, hz, hv => by
    have he : e = 0 := hz
    subst he
    simp only [List.set_cons_zero, List.filter_cons]
    simp only [decide_not]
    have h1 : (decide (v = 0)) = false := by simpa using hv
    simp [h1]
  | e :: rest, i + 1, v, hi, hz, hv => by
    have ih := set_filter_perm rest i v (by simpa using hi) hz hv
    by_cases he : e = 0
    · subst he
      simpa [List.filter_cons] using ih
    · have h1 : ((e :: rest).set (i + 1) v).filter (fun x => x ≠ 0) =
          e :: (rest.set i v).filter (fun x => x ≠ 0) := by
        simp [List.filter_cons, he]
      have h2 : (e :: rest).filter (fun x => x ≠ 0) =
          e :: rest.filter (fun x => x ≠ 0) := by
        simp [List.filter_cons, he]
      rw [h1, h2]
      exact (ih.cons e).trans (List.Perm.swap v e _)

theorem values_nodup_of_flatMap_nodup {f : Nat → List Nat} (hf : ∀ c, c ∈ f c) :
    ∀ (cs : List Nat), (cs.flatMap f).Nodup → cs.Nodup
  | [], _ => List.nodup_nil
  | c :: cs, hnd => by
    simp only [List.flatMap_cons] at hnd
    refine List.nodup_cons.2 ⟨?_, values_nodup_of_flatMap_nodup hf cs hnd.of_append_right⟩
    intro hc
    exact List.disjoint_of_nodup_append hnd (hf c)
      (List.mem_flatMap.2 ⟨c, hc, hf c⟩)

theorem flatMap_perm_update {f f' : Nat → List Nat} {c : Nat} {used : List Nat}
    (hc' : (f' c).Perm (f c ++ used)) :
    ∀ (cs : List Nat), cs.Nodup → c ∈ cs → (∀ d ∈ cs, d ≠ c → f' d = f d) →
    (cs.flatMap f').Perm (cs.flatMap f ++ used)
  | [], _, hmem, _ => absurd hmem (by simp)
  | d :: cs, hnd, hmem, hsib => by
    rw [List.flatMap_cons, List.flatMap_cons, List.append_assoc]
    by_cases hdc : d = c
    · subst hdc
      have hrest : cs.flatMap f' = cs.flatMap f := by
        apply flatMap_congr
        intro e he
        exact hsib e (List.mem_cons_of_mem _ he)
          (fun hec => (List.nodup_cons.1 hnd).1 (hec ▸ he))
      rw [hrest]
      refine (List.Perm.append_right _ hc').trans ?_
      rw [List.append_assoc]
      exact List.Perm.append_left _ List.perm_append_comm
    · have hmem' : c ∈ cs := by
        rcases List.mem_cons.1 hmem with h | h
        · exact absurd h.symm hdc
        · exact h
      have ih := flatMap_perm_update hc' cs (List.nodup_cons.1 hnd).2 hmem'
        (fun e he hec => hsib e (List.mem_cons_of_mem _ he) hec)
      rw [hsib d (by simp) hdc]
      exact List.Perm.append_left _ ih

theorem walkLeaf_leaf {h : List (Nat × Table)} {pfn : Nat} {t : Table}
    (hget : heapGet h pfn = some t) (a : Nat) :
    walkLeaf h 1 pfn a = t.getD (gpaIndex 1 a) 0 := by
  unfold walkLeaf
  rw [hget]

theorem walkLeaf_step {h : List (Nat × Table)} {pfn : Nat} {t : Table} (l : Nat)
    (hget : heapGet h pfn = some t) (a : Nat) :
    walkLeaf h (l + 2) pfn a =
      (if t.getD (gpaIndex (l + 2) a) 0 = 0 then 0
       else walkLeaf h (l + 1) (entryPFN (t.getD (gpaIndex (l + 2) a) 0)) a) := by
  conv_lhs => unfold walkLeaf
  rw [hget]

theorem base_step_succ (l a : Nat) (h4 : l + 2 ≤ 4) :
    addrHigh (l + 2) a * 512 + gpaIndex (l + 2) a = addrHigh (l + 1) a := by
  have h := base_step (l + 2) a (by omega) h4
  simpa using h

theorem perm_flatMap (g : Nat → List Nat) {l₁ l₂ : List Nat} (h : l₁.Perm l₂) :
    (l₁.flatMap g).Perm (l₂.flatMap g) := by
  induction h with
  | nil => exact List.Perm.refl _
  | cons x _ ih => simpa only [List.flatMap_cons] using List.Perm.append_left _ ih
  | swap x y l =>
    simp only [List.flatMap_cons]
    rw [← List.append_assoc, ← List.append_assoc]
    exact List.Perm.append_right _ List.perm_append_comm
  | trans _ _ ih1 ih2 => exact ih1.trans ih2

theorem populate_spec : ∀ (l : Nat) (st : EptState) (tpfn addr : Nat),
    1 ≤ l → l ≤ 4 →
    wfTable st.heap l tpfn (addrHigh l addr) →
    (treePfns st.heap l tpfn).Nodup →
    st.supply.Nodup →
    (∀ p ∈ st.supply, p < 2 ^ 41 ∧ p ∉ keys st.heap) →
    addr < 2 ^ 48 →
    PopConcl st (populate addr l st tpfn).1 (populate addr l st tpfn).2 l tpfn addr
  | 0, _, _, _, h1, _, _, _, _, _, _ => absurd h1 (by norm_num)
  | 1, st, tpfn, addr, _, _, hwf, hnd, hsupnd, hfresh, ha => by
    obtain ⟨t, hget, hlen, hent⟩ := hwf
    have hilt : gpaIndex 1 addr < t.length := by rw [hlen]; exact gpaIndex_lt 1 addr
    by_cases hz : t.getD (gpaIndex 1 addr) 0 = 0
    · have hpop : populate addr 1 st tpfn =
          ({ st with heap := heapSet st.heap tpfn (t.set (gpaIndex 1 addr) (mkLeaf (addr / 4096))) }, true) := by
        simp only [populate]
        rw [hget]
        simp only [hz, if_true]
      rw [hpop]
      have hget' : heapGet (heapSet st.heap tpfn (t.set (gpaIndex 1 addr) (mkLeaf (addr / 4096)))) tpfn
          = some (t.set (gpaIndex 1 addr) (mkLeaf (addr / 4096))) :=
        heapGet_heapSet_self _ (mem_keys_of_heapGet hget)
      refine ⟨[], rfl, ?_, rfl, rfl, rfl, rfl, ?_, ?_, ?_, ?_, ?_, ?_, ?_⟩
      · rw [keys_heapSet, List.append_nil]
      · -- well-formedness
        refine ⟨t.set (gpaIndex 1 addr) (mkLeaf (addr / 4096)), hget', ?_, ?_⟩
        · rw [List.length_set]; exact hlen
        · intro j hj
          by_cases hji : j = gpaIndex 1 addr
          · subst hji
            right
            rw [leaf_base addr ha]
            exact getD_set_self t _ _ hilt
          · rw [getD_set_ne t _ _ _ (fun hc => hji hc.symm)]
            exact hent j hj
      · -- tree perm: both [tpfn]
        show ([tpfn] : List Nat).Perm ([tpfn] ++ [])
        rw [List.append_nil]
      · -- frame
        intro q hq _
        have hqt : q ≠ tpfn := by simpa [treePfns] using hq
        exact heapGet_heapSet_ne _ hqt
      · -- walk effect
        intro _
        have hw' : walkLeaf (heapSet st.heap tpfn (t.set (gpaIndex 1 addr) (mkLeaf (addr / 4096)))) 1 tpfn addr
            = mkLeaf (addr / 4096) := by
          unfold walkLeaf
          rw [hget']
          exact getD_set_self t _ _ hilt
        have hw : walkLeaf st.heap 1 tpfn addr = 0 := by
          unfold walkLeaf
          rw [hget]
          exact hz
        rw [hw', hw, if_pos rfl]
      · intro hc
        exact absurd hc (by simp)
      · -- other addresses
        intro a2 ha2 hpre hframe
        have hi2 : gpaIndex 1 a2 ≠ gpaIndex 1 addr := by
          intro hc
          apply hframe
          rw [← leaf_base a2 ha2, ← leaf_base addr ha, hpre, hc]
        unfold walkLeaf
        rw [hget', hget]
        exact getD_set_ne t _ _ _ (fun hc => hi2 hc.symm)
      · -- stability
        simp only [populate]
        rw [hget']
        have hne : (t.set (gpaIndex 1 addr) (mkLeaf (addr / 4096))).getD (gpaIndex 1 addr) 0 ≠ 0 := by
          rw [getD_set_self t _ _ hilt]
          exact mkLeaf_ne_zero _
        simp only [hne, if_false]
    · have hpop : populate addr 1 st tpfn = (st, true) := by
        simp only [populate]
        rw [hget]
        simp only [hz, if_false]
      rw [hpop]
      refine ⟨[], rfl, by rw [List.append_nil], rfl, rfl, rfl, rfl,
        ⟨t, hget, hlen, hent⟩, ?_, fun _ _ _ => rfl, ?_, ?_, fun _ _ _ _ => rfl, hpop⟩
      · show ([tpfn] : List Nat).Perm ([tpfn] ++ [])
        rw [List.append_nil]
      · intro _
        have hw : walkLeaf st.heap 1 tpfn addr = t.getD (gpaIndex 1 addr) 0 := by
          unfold walkLeaf
          rw [hget]
        rw [hw, if_neg hz]
      · intro hc
        exact absurd hc (by simp)
  | l + 2, st, tpfn, addr, _, h4, hwf, hnd, hsupnd, hfresh, ha => by
    obtain ⟨t, hget, hlen, hent⟩ := hwf
    have hl1 : 1 ≤ l + 1 := by omega
    have hl4 : l + 1 ≤ 4 := by omega
    have hilt : gpaIndex (l + 2) addr < t.length := by
      rw [hlen]; exact gpaIndex_lt _ addr
    have hbstep : addrHigh (l + 2) addr * 512 + gpaIndex (l + 2) addr
        = addrHigh (l + 1) addr := base_step_succ l addr h4
    have htpfn_keys : tpfn ∈ keys st.heap := mem_keys_of_heapGet hget
    by_cases hz : t.getD (gpaIndex (l + 2) addr) 0 = 0
    · -- zero entry: allocate a fresh child table, or fail
      rcases hsup : st.supply with _ | ⟨p, rest⟩
      · -- allocation failure: STATUS_HV_NO_RESOURCES with no mutation
        have hpop : populate addr (l + 2) st tpfn = (st, false) := by
          simp only [populate]
          rw [hget]
          simp only [hz, if_true, hsup]
        rw [hpop]
        refine ⟨[], rfl, by rw [List.append_nil], rfl, rfl, rfl, rfl,
          ⟨t, hget, hlen, hent⟩, ?_, fun _ _ _ => rfl, ?_, fun _ => hsup,
          fun _ _ _ _ => rfl, hpop⟩
        · rw [List.append_nil]
        · intro hc
          exact absurd hc (by simp)
      · -- fresh child table at PFN p
        have hpfresh := hfresh p (by rw [hsup]; exact List.mem_cons_self p rest)
        have htpfn_ne_p : tpfn ≠ p := fun hc => hpfresh.2 (hc ▸ htpfn_keys)
        have hsupnd' : (p :: rest).Nodup := by rw [← hsup]; exact hsupnd
        have hp_not_rest : p ∉ rest := (List.nodup_cons.1 hsupnd').1
        have hpop : populate addr (l + 2) st tpfn =
            populate addr (l + 1)
              { st with
                heap := heapSet (st.heap ++ [(p, zeroTable)]) tpfn (t.set (gpaIndex (l + 2) addr) (mkNonLeaf p)),
                supply := rest,
                allocCount := st.allocCount + 1 } p := by
          simp only [populate]
          rw [hget]
          simp only [hz, if_true, hsup]
        rw [hpop]
        set H : List (Nat × Table) :=
          heapSet (st.heap ++ [(p, zeroTable)]) tpfn (t.set (gpaIndex (l + 2) addr) (mkNonLeaf p)) with hH
        set st1 : EptState := { st with heap := H, supply := rest, allocCount := st.allocCount + 1 }
          with hst1
        have hkeys1 : keys H = keys st.heap ++ [p] := by
          rw [hH, keys_heapSet, keys_append]
          rfl
        have hget1p : heapGet H p = some zeroTable := by
          rw [hH, heapGet_heapSet_ne _ (Ne.symm htpfn_ne_p),
            heapGet_append_of_not_mem hpfresh.2]
          simp [heapGet]
        have hget1t : heapGet H tpfn = some (t.set (gpaIndex (l + 2) addr) (mkNonLeaf p)) := by
          rw [hH]
          apply heapGet_heapSet_self
          rw [keys_append]
          exact List.mem_append_left _ htpfn_keys
        have hwf1 : wfTable H (l + 1) p (addrHigh (l + 1) addr) :=
          wfTable_zeroTable (l + 1) p _ hget1p hl1
        have htree1 : treePfns H (l + 1) p = [p] := treePfns_zeroTable (l + 1) p hget1p
        have hnd1 : (treePfns H (l + 1) p).Nodup := by
          rw [htree1]
          simp
        have hfresh1 : ∀ q ∈ rest, q < 2 ^ 41 ∧ q ∉ keys H := by
          intro q hq
          have hf := hfresh q (by rw [hsup]; exact List.mem_cons_of_mem p hq)
          refine ⟨hf.1, ?_⟩
          rw [hkeys1]
          intro hc
          rcases List.mem_append.1 hc with hc | hc
          · exact hf.2 hc
          · have : q = p := by simpa using hc
            exact hp_not_rest (this ▸ hq)
        have IH := populate_spec (l + 1) st1 p addr hl1 hl4 hwf1 hnd1
          hsupnd'.of_cons hfresh1 ha
        obtain ⟨used', k1, k2, k3, k4, k5, k6, k7, k8, k9, k10, k11, k12, k13⟩ := IH
        have k1' : rest = used' ++ (populate addr (l + 1) st1 p).1.supply := k1
        have k2' : keys (populate addr (l + 1) st1 p).1.heap = keys H ++ used' := k2
        have k8' : (treePfns (populate addr (l + 1) st1 p).1.heap (l + 1) p).Perm
            (p :: used') := by
          have hk := k8
          rw [htree1] at hk
          exact hk
        have hused'_fresh : ∀ q ∈ used', q < 2 ^ 41 ∧ q ∉ keys H := by
          intro q hq
          exact hfresh1 q (by rw [k1']; exact List.mem_append_left _ hq)
        have hused'_not_keys : ∀ q ∈ used', q ∉ keys st.heap ∧ q ≠ p := by
          intro q hq
          have h2 := (hused'_fresh q hq).2
          rw [hkeys1] at h2
          constructor
          · exact fun hc => h2 (List.mem_append_left _ hc)
          · intro hc
            exact h2 (List.mem_append_right _ (by simp [hc]))
        have htpfn_not_used' : tpfn ∉ used' := by
          intro hc
          exact ((hused'_not_keys tpfn hc).1) htpfn_keys
        have htpfn_not_ptree : tpfn ∉ treePfns H (l + 1) p := by
          rw [htree1]
          simpa using htpfn_ne_p
        have hget2t : heapGet (populate addr (l + 1) st1 p).1.heap tpfn
            = some (t.set (gpaIndex (l + 2) addr) (mkNonLeaf p)) := by
          rw [k9 tpfn htpfn_not_ptree htpfn_not_used']
          exact hget1t
        have hsibAgree : ∀ j, j < t.length → t.getD j 0 ≠ 0 →
            ∀ q ∈ treePfns st.heap (l + 1) (entryPFN (t.getD j 0)),
              heapGet (populate addr (l + 1) st1 p).1.heap q = heapGet st.heap q := by
          intro j hj hnej q hq
          rcases hent j (by rw [← hlen]; exact hj) with hzj | ⟨-, hwfj⟩
          · exact absurd hzj hnej
          have hqkeys : q ∈ keys st.heap := treePfns_subset_keys (l + 1) _ _ hwfj hq
          have hqp : q ≠ p := fun hc => hpfresh.2 (hc ▸ hqkeys)
          have hqu' : q ∉ used' := fun hc => (hused'_not_keys q hc).1 hqkeys
          have hqtpfn : q ≠ tpfn :=
            fun hc => root_not_mem_child_tree hget hnd
              (mem_filter_ne_zero hj hnej) (hc ▸ hq)
          have h1 : heapGet (populate addr (l + 1) st1 p).1.heap q = heapGet H q := by
            refine k9 q ?_ hqu'
            rw [htree1]
            simpa using hqp
          rw [h1, hH, heapGet_heapSet_ne _ hqtpfn, heapGet_append_single_ne hqp]
        refine ⟨p :: used', ?_, ?_, ?_, k4, k5, k6, ?_, ?_, ?_, ?_, k11, ?_, ?_⟩
        · rw [hsup, k1']
          rfl
        · rw [k2', hkeys1, List.append_assoc]
          rfl
        · have k3' : (populate addr (l + 1) st1 p).1.allocCount
              = st.allocCount + 1 + used'.length := k3
          rw [k3']
          simp [List.length_cons]
          omega
        · -- well-formedness of the parent
          refine ⟨t.set (gpaIndex (l + 2) addr) (mkNonLeaf p), hget2t,
            by rw [List.length_set]; exact hlen, ?_⟩
          intro j hj
          by_cases hji : j = gpaIndex (l + 2) addr
          · subst hji
            rw [getD_set_self t _ _ hilt]
            refine Or.inr ⟨by rw [entryPFN_mkNonLeaf hpfresh.1], ?_⟩
            rw [entryPFN_mkNonLeaf hpfresh.1, hbstep]
            exact k7
          · rw [getD_set_ne t _ _ _ (fun hc => hji hc.symm)]
            rcases hent j hj with hzj | ⟨hmkj, hwfj⟩
            · exact Or.inl hzj
            · have hnej : t.getD j 0 ≠ 0 := fun hc => mkNonLeaf_ne_zero _ (hmkj.trans hc)
              exact Or.inr ⟨hmkj, wfTable_congr (l + 1) _ _ hwfj
                (hsibAgree j (by rw [hlen]; exact hj) hnej)⟩
        · -- permutation of the tree PFNs
          have htreeL : treePfns (populate addr (l + 1) st1 p).1.heap (l + 2) tpfn =
              tpfn :: (((t.set (gpaIndex (l + 2) addr) (mkNonLeaf p)).filter
                (fun e => e ≠ 0)).map entryPFN).flatMap
                  (treePfns (populate addr (l + 1) st1 p).1.heap (l + 1)) := by
            unfold treePfns
            rw [hget2t]
          have htreeR : treePfns st.heap (l + 2) tpfn =
              tpfn :: ((t.filter (fun e => e ≠ 0)).map entryPFN).flatMap
                (treePfns st.heap (l + 1)) := by
            unfold treePfns
            rw [hget]
          have hcs' : ((((t.set (gpaIndex (l + 2) addr) (mkNonLeaf p)).filter
              (fun e => e ≠ 0)).map entryPFN)).Perm
              (p :: (t.filter (fun e => e ≠ 0)).map entryPFN) := by
            have hsfp := set_filter_perm t (gpaIndex (l + 2) addr) (mkNonLeaf p)
              hilt hz (mkNonLeaf_ne_zero p)
            have hm := hsfp.map entryPFN
            rw [List.map_cons, entryPFN_mkNonLeaf hpfresh.1] at hm
            exact hm
          have hsibEq : ∀ d ∈ (t.filter (fun e => e ≠ 0)).map entryPFN,
              treePfns (populate addr (l + 1) st1 p).1.heap (l + 1) d
                = treePfns st.heap (l + 1) d := by
            intro d hd
            obtain ⟨e, he, rfl⟩ := List.mem_map.1 hd
            obtain ⟨j, hjlen, hje⟩ := exists_index_of_mem (List.mem_filter.1 he).1
            have hne : e ≠ 0 := by simpa using (List.mem_filter.1 he).2
            rw [← hje]
            refine treePfns_congr (l + 1) _ (hsibAgree j hjlen ?_)
            rw [hje]
            exact hne
          rw [htreeL, htreeR, List.cons_append]
          refine List.Perm.cons tpfn ?_
          refine (perm_flatMap _ hcs').trans ?_
          rw [List.flatMap_cons,
            flatMap_congr ((t.filter (fun e => e ≠ 0)).map entryPFN) hsibEq]
          refine (List.Perm.append_right _ k8').trans ?_
          exact List.perm_append_comm
        · -- frame
          intro q hq hqu
          have hqp : q ≠ p := fun hc => hqu (by rw [hc]; exact List.mem_cons_self p used')
          have hqu' : q ∉ used' := fun hc => hqu (List.mem_cons_of_mem _ hc)
          have hqtpfn : q ≠ tpfn := fun hc => hq (hc ▸ self_mem_treePfns st.heap (l + 2) tpfn)
          have h1 : heapGet (populate addr (l + 1) st1 p).1.heap q = heapGet H q := by
            refine k9 q ?_ hqu'
            rw [htree1]
            simpa using hqp
          rw [h1, hH, heapGet_heapSet_ne _ hqtpfn, heapGet_append_single_ne hqp]
        · -- walk effect at addr
          intro hok
          rw [walkLeaf_step l hget2t addr, walkLeaf_step l hget addr,
            getD_set_self t _ _ hilt]
          simp only [hz, if_true]
          rw [if_neg (mkNonLeaf_ne_zero p), entryPFN_mkNonLeaf hpfresh.1]
          have k10' : walkLeaf (populate addr (l + 1) st1 p).1.heap (l + 1) p addr =
              (if walkLeaf H (l + 1) p addr = 0 then mkLeaf (addr / 4096)
               else walkLeaf H (l + 1) p addr) := k10 hok
          rw [k10', walkLeaf_zeroTable (l + 1) p addr hget1p, if_pos rfl]
        · -- other addresses
          intro a2 ha2 hpre hframe
          rw [walkLeaf_step l hget2t a2, walkLeaf_step l hget a2]
          by_cases hii : gpaIndex (l + 2) a2 = gpaIndex (l + 2) addr
          · rw [hii, getD_set_self t _ _ hilt]
            rw [if_neg (mkNonLeaf_ne_zero p), if_pos hz, entryPFN_mkNonLeaf hpfresh.1]
            have hpre' : addrHigh (l + 1) a2 = addrHigh (l + 1) addr := by
              rw [← base_step_succ l a2 h4, ← hbstep, hpre, hii]
            have k12' : walkLeaf (populate addr (l + 1) st1 p).1.heap (l + 1) p a2
                = walkLeaf H (l + 1) p a2 := k12 a2 ha2 hpre' hframe
            rw [k12']
            exact walkLeaf_zeroTable (l + 1) p a2 hget1p
          · rw [getD_set_ne t _ _ _ (fun hc => hii hc.symm)]
            by_cases hz2 : t.getD (gpaIndex (l + 2) a2) 0 = 0
            · rw [if_pos hz2, if_pos hz2]
            · rw [if_neg hz2, if_neg hz2]
              exact walkLeaf_congr (l + 1) _ a2 (hsibAgree (gpaIndex (l + 2) a2)
                (by rw [hlen]; exact gpaIndex_lt _ a2) hz2)
        · -- stability
          simp only [populate]
          rw [hget2t]
          have hne : (t.set (gpaIndex (l + 2) addr) (mkNonLeaf p)).getD
              (gpaIndex (l + 2) addr) 0 ≠ 0 := by
            rw [getD_set_self t _ _ hilt]
            exact mkNonLeaf_ne_zero p
          simp only [hne, if_false]
          rw [getD_set_self t _ _ hilt, entryPFN_mkNonLeaf hpfresh.1]
          exact k13
    · -- a nonzero entry: follow the existing child table
      rcases hent (gpaIndex (l + 2) addr) (by rw [← hlen]; exact hilt) with hz' | ⟨hmk, hwfc⟩
      · exact absurd hz' hz
      rw [hbstep] at hwfc
      have hcmem : t.getD (gpaIndex (l + 2) addr) 0 ∈ t.filter (fun e => e ≠ 0) :=
        mem_filter_ne_zero hilt hz
      have hndc := child_tree_nodup hget hnd hcmem
      have IH := populate_spec (l + 1) st (entryPFN (t.getD (gpaIndex (l + 2) addr) 0)) addr
        hl1 hl4 hwfc hndc hsupnd hfresh ha
      have hpop : populate addr (l + 2) st tpfn =
          populate addr (l + 1) st (entryPFN (t.getD (gpaIndex (l + 2) addr) 0)) := by
        simp only [populate]
        rw [hget]
        simp only [hz, if_false]
      rw [hpop]
      obtain ⟨used, k1, k2, k3, k4, k5, k6, k7, k8, k9, k10, k11, k12, k13⟩ := IH
      have hused_fresh : ∀ q ∈ used, q < 2 ^ 41 ∧ q ∉ keys st.heap := by
        intro q hq
        exact hfresh q (by rw [k1]; exact List.mem_append_left _ hq)
      have htpfn_not_used : tpfn ∉ used := fun hc => (hused_fresh tpfn hc).2 htpfn_keys
      have htpfn_not_ctree :
          tpfn ∉ treePfns st.heap (l + 1) (entryPFN (t.getD (gpaIndex (l + 2) addr) 0)) :=
        root_not_mem_child_tree hget hnd hcmem
      have hget' : heapGet (populate addr (l + 1) st
          (entryPFN (t.getD (gpaIndex (l + 2) addr) 0))).1.heap tpfn = some t := by
        rw [k9 tpfn htpfn_not_ctree htpfn_not_used]
        exact hget
      have hsibAgree : ∀ j, j < t.length → t.getD j 0 ≠ 0 → j ≠ gpaIndex (l + 2) addr →
          ∀ q ∈ treePfns st.heap (l + 1) (entryPFN (t.getD j 0)),
            heapGet (populate addr (l + 1) st
              (entryPFN (t.getD (gpaIndex (l + 2) addr) 0))).1.heap q = heapGet st.heap q := by
        intro j hj hnej hji q hq
        refine k9 q ?_ ?_
        · intro hqc
          exact sibling_disjoint hget hnd hj hilt hji hnej hz q hq hqc
        · intro hqu
          rcases hent j (by rw [← hlen]; exact hj) with hzj | ⟨-, hwfj⟩
          · exact hnej hzj
          · exact (hused_fresh q hqu).2 (treePfns_subset_keys (l + 1) _ _ hwfj hq)
      refine ⟨used, k1, k2, k3, k4, k5, k6, ?_, ?_, ?_, ?_, k11, ?_, ?_⟩
      · -- well-formedness of the parent in the new heap
        refine ⟨t, hget', hlen, ?_⟩
        intro j hj
        by_cases hji : j = gpaIndex (l + 2) addr
        · subst hji
          refine Or.inr ⟨hmk, ?_⟩
          rw [hbstep]
          exact k7
        · rcases hent j hj with hzj | ⟨hmkj, hwfj⟩
          · exact Or.inl hzj
          · have hnej : t.getD j 0 ≠ 0 := fun hc => mkNonLeaf_ne_zero _ (hmkj.trans hc)
            exact Or.inr ⟨hmkj, wfTable_congr (l + 1) _ _ hwfj
              (hsibAgree j (by rw [hlen]; exact hj) hnej hji)⟩
      · -- permutation of the tree PFNs
        have htreeL : treePfns (populate addr (l + 1) st
            (entryPFN (t.getD (gpaIndex (l + 2) addr) 0))).1.heap (l + 2) tpfn =
            tpfn :: ((t.filter (fun e => e ≠ 0)).map entryPFN).flatMap
              (treePfns (populate addr (l + 1) st
                (entryPFN (t.getD (gpaIndex (l + 2) addr) 0))).1.heap (l + 1)) := by
          unfold treePfns
          rw [hget']
        have htreeR : treePfns st.heap (l + 2) tpfn =
            tpfn :: ((t.filter (fun e => e ≠ 0)).map entryPFN).flatMap
              (treePfns st.heap (l + 1)) := by
          unfold treePfns
          rw [hget]
        have hfmnd : (((t.filter (fun e => e ≠ 0)).map entryPFN).flatMap
            (treePfns st.heap (l + 1))).Nodup := by
          have hnd2 := hnd
          rw [htreeR] at hnd2
          exact hnd2.of_cons
        have hcsnd := values_nodup_of_flatMap_nodup
          (fun c => self_mem_treePfns st.heap (l + 1) c) _ hfmnd
        have hsibEq : ∀ d ∈ (t.filter (fun e => e ≠ 0)).map entryPFN,
            d ≠ entryPFN (t.getD (gpaIndex (l + 2) addr) 0) →
            treePfns (populate addr (l + 1) st
              (entryPFN (t.getD (gpaIndex (l + 2) addr) 0))).1.heap (l + 1) d =
            treePfns st.heap (l + 1) d := by
          intro d hd hdc
          obtain ⟨e, he, rfl⟩ := List.mem_map.1 hd
          obtain ⟨j, hjlen, hje⟩ := exists_index_of_mem (List.mem_filter.1 he).1
          have hne : e ≠ 0 := by simpa using (List.mem_filter.1 he).2
          have hji : j ≠ gpaIndex (l + 2) addr := by
            intro hc
            apply hdc
            rw [← hje, hc]
          rw [← hje]
          refine treePfns_congr (l + 1) _ (hsibAgree j hjlen ?_ hji)
          rw [hje]
          exact hne
        rw [htreeL, htreeR, List.cons_append]
        exact List.Perm.cons tpfn
          (flatMap_perm_update k8 _ hcsnd (List.mem_map_of_mem _ hcmem) hsibEq)
      · -- frame
        intro q hq hqu
        refine k9 q (fun hc => hq ?_) hqu
        exact treePfns_child_subset hget hcmem l hc
      · -- walk effect at addr
        intro hok
        rw [walkLeaf_step l hget' addr, walkLeaf_step l hget addr]
        simp only [hz, if_false]
        exact k10 hok
      · -- other addresses
        intro a2 ha2 hpre hframe
        rw [walkLeaf_step l hget' a2, walkLeaf_step l hget a2]
        by_cases hii : gpaIndex (l + 2) a2 = gpaIndex (l + 2) addr
        · rw [hii]
          simp only [hz, if_false]
          have hpre' : addrHigh (l + 1) a2 = addrHigh (l + 1) addr := by
            rw [← base_step_succ l a2 h4, ← hbstep, hpre, hii]
          exact k12 a2 ha2 hpre' hframe
        · by_cases hz2 : t.getD (gpaIndex (l + 2) a2) 0 = 0
          · rw [if_pos hz2, if_pos hz2]
          · rw [if_neg hz2, if_neg hz2]
            exact walkLeaf_congr (l + 1) _ a2 (hsibAgree (gpaIndex (l + 2) a2)
              (by rw [hlen]; exact gpaIndex_lt _ a2) hz2 hii)
      · -- stability
        simp only [populate]
        rw [hget']
        simp only [hz, if_false]
        exact k13

/-! ## The global invariant under `map_page` -/

theorem freshEpt_GInv (r : Nat) (supply : List Nat) (hnd : supply.Nodup)
    (hfr : ∀ p ∈ supply, p < 2 ^ 41 ∧ p ≠ r) : GInv (freshEpt r supply) := by
  have hget : heapGet [(r, zeroTable)] r = some zeroTable := by simp [heapGet]
  refine ⟨r, rfl, wfTable_zeroTable 4 r 0 hget (by norm_num), ?_, ?_, hnd, ?_, rfl⟩
  · show (treePfns [(r, zeroTable)] 4 r).Nodup
    rw [treePfns_zeroTable 4 r hget]
    simp
  · show (keys [(r, zeroTable)]).Perm (treePfns [(r, zeroTable)] 4 r)
    rw [treePfns_zeroTable 4 r hget]
    exact List.Perm.refl _
  · intro p hp
    have hp' : p ∈ supply := hp
    refine ⟨(hfr p hp').1, ?_⟩
    show p ∉ keys [(r, zeroTable)]
    simpa [keys] using (hfr p hp').2

theorem mapPage_GInv (st : EptState) (addr : Nat) (hG : GInv st) (ha : addr < 2 ^ 48) :
    GInv (mapPage st addr).1 ∧
    (mapPage st addr).1.pml4 = st.pml4 ∧
    (mapPage st addr).1.eptp = st.eptp ∧
    (mapPage st addr).1.freeCount = st.freeCount ∧
    mapPage (mapPage st addr).1 addr = mapPage st addr ∧
    (∀ r, st.pml4 = some r →
      ((mapPage st addr).2 = true →
        walkLeaf (mapPage st addr).1.heap 4 r addr =
          (if walkLeaf st.heap 4 r addr = 0 then mkLeaf (addr / 4096)
           else walkLeaf st.heap 4 r addr)) ∧
      (∀ a2, a2 < 2 ^ 48 → a2 / 4096 ≠ addr / 4096 →
        walkLeaf (mapPage st addr).1.heap 4 r a2 = walkLeaf st.heap 4 r a2) ∧
      ((mapPage st addr).2 = false → (mapPage st addr).1.supply = [])) := by
  obtain ⟨r, hr, hwf, hnd, hperm, hsnd, hfr, hcnt⟩ := hG
  have hwf' : wfTable st.heap 4 r (addrHigh 4 addr) := by
    rw [addrHigh_four]
    exact hwf
  have hmp : mapPage st addr = populate addr 4 st r := by
    unfold mapPage VMX_EPT_PAGE_WALK_LENGTH
    rw [hr]
  rw [hmp]
  obtain ⟨used, k1, k2, k3, k4, k5, k6, k7, k8, k9, k10, k11, k12, k13⟩ :=
    populate_spec 4 st r addr (by norm_num) (by norm_num) hwf' hnd hsnd hfr ha
  have hused_nodup : used.Nodup := by
    rw [k1] at hsnd
    exact hsnd.of_append_left
  have hused_fresh : ∀ q ∈ used, q < 2 ^ 41 ∧ q ∉ keys st.heap := by
    intro q hq
    exact hfr q (by rw [k1]; exact List.mem_append_left _ hq)
  have hnd' : (treePfns (populate addr 4 st r).1.heap 4 r).Nodup := by
    refine k8.nodup_iff.2 (List.nodup_append.2 ⟨hnd, hused_nodup, ?_⟩)
    intro q hqt hqu
    exact (hused_fresh q hqu).2 (hperm.mem_iff.2 hqt)
  refine ⟨⟨r, ?_, ?_, hnd', ?_, ?_, ?_, ?_⟩, k5, k6, k4, ?_, ?_⟩
  · rw [k5, hr]
  · have hw := k7
    rw [addrHigh_four] at hw
    exact hw
  · rw [k2]
    exact (hperm.append_right used).trans k8.symm
  · rw [k1] at hsnd
    exact hsnd.of_append_right
  · intro q hq
    have hqs : q ∈ st.supply := by
      rw [k1]
      exact List.mem_append_right _ hq
    refine ⟨(hfr q hqs).1, ?_⟩
    rw [k2]
    intro hc
    rcases List.mem_append.1 hc with hc | hc
    · exact (hfr q hqs).2 hc
    · rw [k1] at hsnd
      exact List.disjoint_of_nodup_append hsnd hc hq
  · have hlk : (keys (populate addr 4 st r).1.heap).length
        = (keys st.heap).length + used.length := by
      rw [k2, List.length_append]
    rw [k3, k4, hlk, hcnt]
    omega
  · have hpml : (populate addr 4 st r).1.pml4 = some r := by
      rw [k5, hr]
    have hmp' : mapPage (populate addr 4 st r).1 addr
        = populate addr 4 (populate addr 4 st r).1 r := by
      unfold mapPage VMX_EPT_PAGE_WALK_LENGTH
      rw [hpml]
    rw [hmp', k13]
  · intro r' hr'
    have hrr : r' = r := by
      rw [hr] at hr'
      exact (Option.some.inj hr').symm
    subst hrr
    refine ⟨k10, ?_, k11⟩
    intro a2 ha2 hfr2
    exact k12 a2 ha2 (by rw [addrHigh_four, addrHigh_four]) hfr2

theorem runMapPages_GInv : ∀ (addrs : List Nat) (st : EptState), GInv st →
    (∀ a ∈ addrs, a < 2 ^ 48) →
    GInv (runMapPages st addrs) ∧
    (runMapPages st addrs).pml4 = st.pml4 ∧
    (runMapPages st addrs).eptp = st.eptp ∧
    (runMapPages st addrs).freeCount = st.freeCount
  | [], _, hG, _ => ⟨hG, rfl, rfl, rfl⟩
  | a :: rest, st, hG, hlt => by
    have hm := mapPage_GInv st a hG (hlt a (by simp))
    have ih := runMapPages_GInv rest (mapPage st a).1 hm.1
      (fun x hx => hlt x (List.mem_cons_of_mem _ hx))
    simp only [runMapPages]
    refine ⟨ih.1, ?_, ?_, ?_⟩
    · rw [ih.2.1, hm.2.1]
    · rw [ih.2.2.1, hm.2.2.1]
    · rw [ih.2.2.2, hm.2.2.2.1]

/-- C1: for every finite sequence of `map_page` calls on 48-bit
guest-physical addresses, starting from a freshly zeroed PML4 at PFN `r`
and an allocator whose supply consists of distinct fresh page frames, the
resulting EPT tree is well formed — every non-leaf entry reachable from
the root is all-zero or has `R = W = X = 1` and a PFN pointing to an
allocated zero-or-valid child table, every leaf PTE is all-zero or has
`R = W = X = 1`, memory type writeback, and the PFN of the 4 KiB frame it
identity-maps (`wfTable`) — and no two distinct parent entries share a
child PFN (the list of all table PFNs of the tree has no duplicate). -/
theorem mapPage_wellFormed (r : Nat) (supply addrs : List Nat)
    (hnd : supply.Nodup) (hfr : ∀ p ∈ supply, p < 2 ^ 41 ∧ p ≠ r)
    (haddr : ∀ a ∈ addrs, a < 2 ^ 48) :
    wfTable (runMapPages (freshEpt r supply) addrs).heap 4 r 0 ∧
    (treePfns (runMapPages (freshEpt r supply) addrs).heap 4 r).Nodup := by
  have h := runMapPages_GInv addrs (freshEpt r supply) (freshEpt_GInv r supply hnd hfr) haddr
  obtain ⟨⟨r', hr', hwf, hnodup, -, -, -, -⟩, hpml, -, -⟩ := h
  have : r' = r := by
    have h1 : some r' = some r := by
      rw [← hr', hpml]
      rfl
    exact Option.some.inj h1
  subst this
  exact ⟨hwf, hnodup⟩

theorem mapPage_wellFormed_witness :
    (([2, 3, 4] : List Nat).Nodup ∧ (∀ p ∈ ([2, 3, 4] : List Nat), p < 2 ^ 41 ∧ p ≠ 1) ∧
      (∀ a ∈ ([4096, 4096 * 70000] : List Nat), a < 2 ^ 48)) ∧
    (wfTable (runMapPages (freshEpt 1 [2, 3, 4]) [4096, 4096 * 70000]).heap 4 1 0 ∧
      (treePfns (runMapPages (freshEpt 1 [2, 3, 4]) [4096, 4096 * 70000]).heap 4 1).Nodup) :=
  ⟨⟨by decide, by decide, by decide⟩,
    mapPage_wellFormed 1 [2, 3, 4] [4096, 4096 * 70000] (by decide) (by decide) (by decide)⟩

/-- C5: `map_page` is idempotent — on any tree state reachable from a
freshly zeroed PML4 by prior `map_page` calls, calling `map_page a` twice
in succession yields exactly the state (and status) of calling it once; in
particular an already nonzero leaf PTE is never overwritten. -/
theorem mapPage_idempotent (r : Nat) (supply addrs : List Nat) (a : Nat)
    (hnd : supply.Nodup) (hfr : ∀ p ∈ supply, p < 2 ^ 41 ∧ p ≠ r)
    (haddr : ∀ x ∈ addrs, x < 2 ^ 48) (ha : a < 2 ^ 48) :
    mapPage (mapPage (runMapPages (freshEpt r supply) addrs) a).1 a
      = mapPage (runMapPages (freshEpt r supply) addrs) a := by
  have h := runMapPages_GInv addrs (freshEpt r supply) (freshEpt_GInv r supply hnd hfr) haddr
  exact (mapPage_GInv (runMapPages (freshEpt r supply) addrs) a h.1 ha).2.2.2.2.1

theorem mapPage_idempotent_witness :
    ((4096 : Nat) < 2 ^ 48) ∧
    mapPage (mapPage (runMapPages (freshEpt 1 [2, 3, 4]) [4096]) 4096).1 4096
      = mapPage (runMapPages (freshEpt 1 [2, 3, 4]) [4096]) 4096 :=
  ⟨by decide, mapPage_idempotent 1 [2, 3, 4] [4096] 4096 (by decide) (by decide)
    (by decide) (by decide)⟩

/-! ## Field-preservation lemmas -/

theorem foldl_pres {α : Type} {f : EptState → Nat → EptState} (g : EptState → α)
    (hf : ∀ s e, g (f s e) = g s) :
    ∀ (ts : List Nat) (s : EptState), g (ts.foldl f s) = g s
  | [], _ => rfl
  | e :: ts, s => (foldl_pres g hf ts (f s e)).trans (hf s e)

theorem populate_pres : ∀ (l addr : Nat) (st : EptState) (tpfn : Nat),
    (populate addr l st tpfn).1.eptp = st.eptp ∧
    (populate addr l st tpfn).1.pml4 = st.pml4 ∧
    (populate addr l st tpfn).1.freeCount = st.freeCount
  | 0, _, _, _ => ⟨rfl, rfl, rfl⟩
  | 1, addr, st, tpfn => by
    simp only [populate]
    cases heapGet st.heap tpfn with
    | none => exact ⟨rfl, rfl, rfl⟩
    | some t =>
      dsimp only
      by_cases hz : t.getD (gpaIndex 1 addr) 0 = 0
      · rw [if_pos hz]
        exact ⟨rfl, rfl, rfl⟩
      · rw [if_neg hz]
        exact ⟨rfl, rfl, rfl⟩
  | l + 2, addr, st, tpfn => by
    simp only [populate]
    cases heapGet st.heap tpfn with
    | none => exact ⟨rfl, rfl, rfl⟩
    | some t =>
      dsimp only
      by_cases hz : t.getD (gpaIndex (l + 2) addr) 0 = 0
      · rw [if_pos hz]
        cases st.supply with
        | nil => exact ⟨rfl, rfl, rfl⟩
        | cons p rest => exact populate_pres (l + 1) addr _ p
      · rw [if_neg hz]
        exact populate_pres (l + 1) addr st _

theorem mapLoop_pres (root addr endAddr : Nat) (st : EptState) :
    (mapLoop root addr endAddr st).1.eptp = st.eptp ∧
    (mapLoop root addr endAddr st).1.pml4 = st.pml4 ∧
    (mapLoop root addr endAddr st).1.freeCount = st.freeCount := by
  rw [mapLoop]
  split
  · rcases hp : populate addr VMX_EPT_PAGE_WALK_LENGTH st root with ⟨st1, ok⟩
    have hp1 := populate_pres VMX_EPT_PAGE_WALK_LENGTH addr st root
    rw [hp] at hp1
    cases ok
    · exact hp1
    · have ih := mapLoop_pres root (addr + 4096) endAddr st1
      exact ⟨ih.1.trans hp1.1, ih.2.1.trans hp1.2.1, ih.2.2.trans hp1.2.2⟩
  · exact ⟨rfl, rfl, rfl⟩
  termination_by endAddr - addr
  decreasing_by omega

theorem buildRanges_pres : ∀ (root : Nat) (ranges : List (Nat × Nat)) (st : EptState),
    (buildRanges root ranges st).1.eptp = st.eptp ∧
    (buildRanges root ranges st).1.pml4 = st.pml4 ∧
    (buildRanges root ranges st).1.freeCount = st.freeCount
  | _, [], _ => ⟨rfl, rfl, rfl⟩
  | root, (base, bytes) :: rest, st => by
    simp only [buildRanges]
    split
    · exact ⟨rfl, rfl, rfl⟩
    · rcases hm : mapLoop root base (base + bytes - 1) st with ⟨st1, ok⟩
      have hm1 := mapLoop_pres root base (base + bytes - 1) st
      rw [hm] at hm1
      cases ok
      · exact hm1
      · have ih := buildRanges_pres root rest st1
        exact ⟨ih.1.trans hm1.1, ih.2.1.trans hm1.2.1, ih.2.2.trans hm1.2.2⟩

theorem buildIdentityTables_pres (root : Nat) (ranges : List (Nat × Nat))
    (apicBase : Nat) (st : EptState) :
    (buildIdentityTables root ranges apicBase st).1.eptp = st.eptp ∧
    (buildIdentityTables root ranges apicBase st).1.pml4 = st.pml4 ∧
    (buildIdentityTables root ranges apicBase st).1.freeCount = st.freeCount := by
  unfold buildIdentityTables
  rcases hb : buildRanges root ranges st with ⟨st1, ok⟩
  have hb1 := buildRanges_pres root ranges st
  rw [hb] at hb1
  cases ok
  · exact hb1
  · have hp := populate_pres VMX_EPT_PAGE_WALK_LENGTH apicBase st1 root
    exact ⟨hp.1.trans hb1.1, hp.2.1.trans hb1.2.1, hp.2.2.trans hb1.2.2⟩

theorem cleanupPD_pres (st : EptState) (pd : Nat) :
    (cleanupPD st pd).eptp = st.eptp ∧ (cleanupPD st pd).allocCount = st.allocCount ∧
    (cleanupPD st pd).supply = st.supply ∧ (cleanupPD st pd).pml4 = st.pml4 := by
  unfold cleanupPD
  cases heapGet st.heap pd with
  | none => exact ⟨rfl, rfl, rfl, rfl⟩
  | some t =>
    refine ⟨foldl_pres _ ?_ t st, foldl_pres _ ?_ t st, foldl_pres _ ?_ t st,
      foldl_pres _ ?_ t st⟩ <;>
      · intro s e
        by_cases h : e = 0 ∨ entryLargeBit e = 1 <;> simp [h, freeOne]

theorem cleanupPDPT_pres (st : EptState) (pdpt : Nat) :
    (cleanupPDPT st pdpt).eptp = st.eptp ∧ (cleanupPDPT st pdpt).allocCount = st.allocCount ∧
    (cleanupPDPT st pdpt).supply = st.supply ∧ (cleanupPDPT st pdpt).pml4 = st.pml4 := by
  unfold cleanupPDPT
  cases heapGet st.heap pdpt with
  | none => exact ⟨rfl, rfl, rfl, rfl⟩
  | some t =>
    refine ⟨foldl_pres _ ?_ t st, foldl_pres _ ?_ t st, foldl_pres _ ?_ t st,
      foldl_pres _ ?_ t st⟩ <;>
      · intro s e
        by_cases h : e = 0 ∨ entryLargeBit e = 1
        · simp [h]
        · have hc := cleanupPD_pres s (entryPFN e)
          simp only [h, if_false, freeOne]
          simp [hc.1, hc.2.1, hc.2.2.1, hc.2.2.2]

theorem cleanup_pres (st : EptState) :
    (cleanup st).eptp = st.eptp ∧ (cleanup st).allocCount = st.allocCount ∧
    (cleanup st).supply = st.supply := by
  unfold cleanup
  cases hpml : st.pml4 with
  | none => exact ⟨rfl, rfl, rfl⟩
  | some root =>
    dsimp only
    cases hg : heapGet st.heap root with
    | none => exact ⟨rfl, rfl, rfl⟩
    | some t =>
      dsimp only
      refine ⟨foldl_pres (fun s => s.eptp) ?_ t st, foldl_pres (fun s => s.allocCount) ?_ t st,
        foldl_pres (fun s => s.supply) ?_ t st⟩ <;>
        · intro s e
          by_cases h : e = 0
          · simp [h]
          · simp only [h, if_false]
            have hc := cleanupPDPT_pres s (entryPFN e)
            simp [freeOne, hc.1, hc.2.1, hc.2.2.1]

/-- C9: `ShvVmxEptInitialize` is atomic with respect to the global EPTP —
whenever it fails with `STATUS_HV_NO_RESOURCES` (PML4 allocation failure or
identity-table build failure, the latter unwound by `ShvVmxEptCleanup`),
the global `ShvVmxEptEptp` is exactly its prior value; on success its PFN,
page-walk-length and memory-type fields are set (to the PML4 PFN, 3, and
writeback) only after the build has fully succeeded (`eptpSet`). -/
theorem initialize_eptp_atomic (ranges : List (Nat × Nat)) (apicBase : Nat)
    (st : EptState) :
    ((ShvVmxEptInitialize ranges apicBase st).2 = false →
      (ShvVmxEptInitialize ranges apicBase st).1.eptp = st.eptp) ∧
    ((ShvVmxEptInitialize ranges apicBase st).2 = true →
      ∃ p rest, st.supply = p :: rest ∧
        (ShvVmxEptInitialize ranges apicBase st).1.eptp = eptpSet st.eptp p) := by
  unfold ShvVmxEptInitialize
  cases hsup : st.supply with
  | nil => exact ⟨fun _ => rfl, fun hc => absurd hc (by simp)⟩
  | cons p rest =>
    dsimp only
    rcases hb : buildIdentityTables p ranges apicBase { st with pml4 := some p, heap := st.heap ++ [(p, zeroTable)], supply := rest, allocCount := st.allocCount + 1 } with ⟨st2, ok⟩
    have hpres := (buildIdentityTables_pres p ranges apicBase { st with pml4 := some p, heap := st.heap ++ [(p, zeroTable)], supply := rest, allocCount := st.allocCount + 1 }).1
    rw [hb] at hpres
    cases ok
    · dsimp only
      refine ⟨fun _ => ?_, fun hc => absurd hc (by simp)⟩
      rw [(cleanup_pres st2).1, hpres]
    · dsimp only
      refine ⟨fun hc => absurd hc (by simp), fun _ => ⟨p, rest, rfl, ?_⟩⟩
      rw [hpres]

theorem initialize_eptp_atomic_witness :
    ((ShvVmxEptInitialize [] 0 (scratchState [] 7)).2 = false) ∧
    (ShvVmxEptInitialize [] 0 (scratchState [] 7)).1.eptp = (scratchState [] 7).eptp :=
  ⟨by decide, (initialize_eptp_atomic [] 0 (scratchState [] 7)).1 (by decide)⟩

/-- C3 (the code contradicts the claim): `ShvVmxEptHandleViolation` applies
`SHV_EPT_VIOLATION_ENTRY_MISS` to `VpState->ExitReason` rather than to the
exit qualification — the handler never reads the exit qualification at
all.  At its call site the exit reason is the EPT-violation basic exit
reason 48, whose bits 3-5 are not all zero, so every EPT violation —
including a not-present fault with exit qualification 0 on GPA 0x7000 —
takes the fatal `NT_ASSERTMSG("Unknown EPT Violation Reason")` path: the
tree is never mutated, no page is mapped, and no INVEPT is issued. -/
theorem handleViolation_always_fatal (st : EptState) (gpa : Nat) :
    ShvVmxEptHandleViolation st EXIT_REASON_EPT_VIOLATION gpa
      = (st, ViolationOutcome.fatalAssert) := rfl

/-- C10: the result of `ShvVmxEptProbe` depends only on its
`IA32_VMX_PROCBASED_CTLS2` argument — the value read from
`IA32_VMX_PROCBASED_CTLS` (whose bit-63 check is commented out) has no
effect — and it is `TRUE` exactly when bit 33 (the allowed-one position of
the EPT secondary control, bit 1 of the high dword) is set. -/
theorem eptProbe_bit33_only (procCtls procCtls' procCtls2 : Nat) :
    ShvVmxEptProbe procCtls procCtls2 = ShvVmxEptProbe procCtls' procCtls2 ∧
    (ShvVmxEptProbe procCtls procCtls2 = true ↔ procCtls2.testBit 33 = true) := by
  unfold ShvVmxEptProbe
  refine ⟨rfl, ?_⟩
  by_cases h : procCtls2.testBit 33 <;> simp [h]

/-- C4 counterexample: for the 64-bit control-MSR value 1 — required-one
(low dword) bit 0 set but allowed-one (high dword) mask 0 — and desired
value 0, `ShvUtilAdjustMsr` returns 1, and `r & ~allowed_one = 1 ≠ 0`,
refuting the claim for arbitrary control-MSR values. -/
theorem adjustMsr_claim_counterexample :
    ShvUtilAdjustMsr 1 0 = 1 ∧
    ShvUtilAdjustMsr 1 0 &&& ((2 ^ 32 - 1) ^^^ ((1 : Nat) / 2 ^ 32) % 2 ^ 32) ≠ 0 := by
  decide

/-- C4 (amended): for every 32-bit desired value and every control-MSR
value whose required-one bits (low dword) are all allowed-one (contained in
the high dword — architecturally guaranteed for the VMX control MSRs), the
function returns `r = (desired & high_dword) | low_dword`, and `r` has no
bit outside the allowed-one mask and contains every required-one bit. -/
theorem adjustMsr_law (control desired : Nat)
    (hcons : control % 2 ^ 32 &&& ((2 ^ 32 - 1) ^^^ (control / 2 ^ 32) % 2 ^ 32) = 0) :
    ShvUtilAdjustMsr control desired
        = ((desired % 2 ^ 32) &&& ((control / 2 ^ 32) % 2 ^ 32)) ||| (control % 2 ^ 32) ∧
    ShvUtilAdjustMsr control desired &&& ((2 ^ 32 - 1) ^^^ (control / 2 ^ 32) % 2 ^ 32) = 0 ∧
    ShvUtilAdjustMsr control desired ||| control % 2 ^ 32 = ShvUtilAdjustMsr control desired := by
  refine ⟨rfl, ?_, ?_⟩
  · apply Nat.eq_of_testBit_eq
    intro i
    have hb := congrArg (fun x => x.testBit i) hcons
    simp only [Nat.testBit_land, Nat.testBit_xor, Nat.testBit_mod_two_pow,
      Nat.testBit_two_pow_sub_one, Nat.zero_testBit] at hb
    unfold ShvUtilAdjustMsr
    simp only [Nat.testBit_land, Nat.testBit_lor, Nat.testBit_xor, Nat.testBit_mod_two_pow,
      Nat.testBit_two_pow_sub_one, Nat.zero_testBit]
    by_cases hi : i < 32 <;> by_cases h1 : (control / 2 ^ 32).testBit i <;>
      by_cases h2 : control.testBit i <;> by_cases h3 : desired.testBit i <;>
      simp_all
  · unfold ShvUtilAdjustMsr
    rw [Nat.lor_assoc, Nat.or_self]

theorem adjustMsr_law_witness :
    ((0xFF0000000F : Nat) % 2 ^ 32 &&&
      ((2 ^ 32 - 1) ^^^ ((0xFF0000000F : Nat) / 2 ^ 32) % 2 ^ 32) = 0) ∧
    ShvUtilAdjustMsr 0xFF0000000F 0x12 &&&
      ((2 ^ 32 - 1) ^^^ ((0xFF0000000F : Nat) / 2 ^ 32) % 2 ^ 32) = 0 :=
  ⟨by decide, (adjustMsr_law 0xFF0000000F 0x12 (by decide)).2.1⟩

/-- C2 counterexample: in a configuration that satisfies every condition of
the claim except that CPUID.1:ECX bit 31 (hypervisor present) is set, the
probe still reports supported — the implementation never consults bit 31 —
while the claim (`ClaimProbe`) requires false. -/
theorem probe_claim_counterexample :
    ShvProbeSupported 0x756E6547 0x6C65746E 0x49656E69 (0x20 + 2 ^ 31) 5 0 (2 ^ 33) = true ∧
    ClaimProbe 0x756E6547 0x6C65746E 0x49656E69 (0x20 + 2 ^ 31) 5 0 (2 ^ 33) = false := by
  decide

/-- C2 (amended): the probe returns supported iff NOT all three CPUID
leaf-0 registers differ from the constants the code compares them with
(the source uses `&&`, so one matching register suffices, and it compares
`ECX` with `'Ieni'` and `EDX` with `'letn'` — each the GenuineIntel value
of the other register), CPUID.1:ECX bit 5 (VMX) is set,
IA32_FEATURE_CONTROL is locked (bit 0) and enables VMXON outside SMX
(bit 2), and IA32_VMX_PROCBASED_CTLS2 bit 33 (EPT allowed-one) is set.
The hypervisor-present bit CPUID.1:ECX bit 31 is not consulted. -/
theorem probe_supported_iff (ebx0 ecx0 edx0 ecx1 fc ctls ctls2 : Nat) :
    ShvProbeSupported ebx0 ecx0 edx0 ecx1 fc ctls ctls2 = true ↔
      (¬(ebx0 ≠ VENDOR_EBX ∧ ecx0 ≠ VENDOR_ECX ∧ edx0 ≠ VENDOR_EDX) ∧
        ecx1.testBit 5 = true ∧ fc.testBit 0 = true ∧ fc.testBit 2 = true ∧
        ctls2.testBit 33 = true) := by
  have h5 : (ecx1 &&& 0x20 = 0) ↔ ecx1.testBit 5 = false := by
    rw [show (0x20 : Nat) = 2 ^ 5 from by norm_num, Nat.and_two_pow]
    rcases h : ecx1.testBit 5 <;> simp [h]
  have h0 : (fc &&& IA32_FEATURE_CONTROL_MSR_LOCK = 0) ↔ fc.testBit 0 = false := by
    rw [show IA32_FEATURE_CONTROL_MSR_LOCK = 2 ^ 0 from by
      norm_num [IA32_FEATURE_CONTROL_MSR_LOCK], Nat.and_two_pow]
    rcases h : fc.testBit 0 <;> simp [h]
  have h2 : (fc &&& IA32_FEATURE_CONTROL_MSR_ENABLE_VMXON_OUTSIDE_SMX = 0) ↔
      fc.testBit 2 = false := by
    rw [show IA32_FEATURE_CONTROL_MSR_ENABLE_VMXON_OUTSIDE_SMX = 2 ^ 2 from by
      norm_num [IA32_FEATURE_CONTROL_MSR_ENABLE_VMXON_OUTSIDE_SMX], Nat.and_two_pow]
    rcases h : fc.testBit 2 <;> simp [h]
  unfold ShvProbeSupported ShvVmxProbe ShvVmxEptProbe
  by_cases hv : ebx0 ≠ VENDOR_EBX ∧ ecx0 ≠ VENDOR_ECX ∧ edx0 ≠ VENDOR_EDX <;>
  by_cases hb5 : ecx1.testBit 5 <;>
  by_cases hb0 : fc.testBit 0 <;>
  by_cases hb2 : fc.testBit 2 <;>
  by_cases hb33 : ctls2.testBit 33 <;>
    simp [hv, hb5, hb0, hb2, hb33, h5, h0, h2]

/-- C8 counterexample: with a conforming IA32_VMX_BASIC value, a successful
VMXON and a failing VMCLEAR, `ShvVmxEnterRootModeOnVp` aborts reporting
failure but the CPU is left IN VMX operation — no VMXOFF is executed on
this abort path, not even by the caller `ShvVmxLaunchOnVp` (which executes
VMXOFF only on the failed-VMLAUNCH path) — refuting the claim that every
abort path after a successful VMXON executes VMXOFF. -/
theorem rootEntry_claim_counterexample :
    (ShvVmxEnterRootModeOnVp (0x1000 * 2 ^ 32 + 6 * 2 ^ 50 + 2 ^ 55)
        ⟨true, false, true, true⟩).success = false ∧
    (ShvVmxEnterRootModeOnVp (0x1000 * 2 ^ 32 + 6 * 2 ^ 50 + 2 ^ 55)
        ⟨true, false, true, true⟩).inVmxOperation = true ∧
    (ShvVmxLaunchOnVp (0x1000 * 2 ^ 32 + 6 * 2 ^ 50 + 2 ^ 55)
        ⟨true, false, true, true⟩).launched = false ∧
    (ShvVmxLaunchOnVp (0x1000 * 2 ^ 32 + 6 * 2 ^ 50 + 2 ^ 55)
        ⟨true, false, true, true⟩).inVmxOperation = true := by
  decide

/-- C8 (amended): every failing step (size check, memory-type check,
true-MSR check, VMXON, VMCLEAR, VMPTRLD) aborts reporting failure; the CPU
is left in VMX operation exactly when the pre-checks passed and VMXON
succeeded — in particular VMCLEAR/VMPTRLD failures return with the CPU
still inside VMX — and on the full launch path the CPU ends up outside VMX
(via the post-VMLAUNCH VMXOFF) only when VMLAUNCH itself fell through. -/
theorem rootEntry_abort_state (msrBasic : Nat) (ops : VmxOps) :
    ((ShvVmxEnterRootModeOnVp msrBasic ops).inVmxOperation
        = (vmxBasicChecksOk msrBasic && ops.vmxonOk)) ∧
    ((ShvVmxEnterRootModeOnVp msrBasic ops).success
        = (vmxBasicChecksOk msrBasic && ops.vmxonOk && ops.vmclearOk && ops.vmptrldOk)) ∧
    ((ShvVmxLaunchOnVp msrBasic ops).launched = false →
      (ShvVmxLaunchOnVp msrBasic ops).inVmxOperation
        = (vmxBasicChecksOk msrBasic && ops.vmxonOk && !(ops.vmclearOk && ops.vmptrldOk))) := by
  obtain ⟨o1, o2, o3, o4⟩ := ops
  unfold ShvVmxLaunchOnVp ShvVmxEnterRootModeOnVp vmxBasicChecksOk
  by_cases c1 : (msrBasic &&& VMX_BASIC_VMCS_SIZE_MASK) >>> 32 > PAGE_SIZE <;>
  by_cases c2 : (msrBasic &&& VMX_BASIC_MEMORY_TYPE_MASK) >>> 50 = MTRR_TYPE_WB <;>
  by_cases c3 : msrBasic &&& VMX_BASIC_DEFAULT1_ZERO = 0 <;>
  cases o1 <;> cases o2 <;> cases o3 <;> cases o4 <;>
    simp [c1, c2, c3]

theorem rootEntry_abort_state_witness :
    ((ShvVmxLaunchOnVp (0x1000 * 2 ^ 32 + 6 * 2 ^ 50 + 2 ^ 55)
        ⟨true, false, true, true⟩).launched = false) ∧
    (ShvVmxLaunchOnVp (0x1000 * 2 ^ 32 + 6 * 2 ^ 50 + 2 ^ 55)
        ⟨true, false, true, true⟩).inVmxOperation
      = (vmxBasicChecksOk (0x1000 * 2 ^ 32 + 6 * 2 ^ 50 + 2 ^ 55) && true && !(false && true)) :=
  ⟨by decide, (rootEntry_abort_state (0x1000 * 2 ^ 32 + 6 * 2 ^ 50 + 2 ^ 55)
    ⟨true, false, true, true⟩).2.2 (by decide)⟩

/-! ## Counting the frees of `ShvVmxEptCleanup` -/

theorem freeAll_append (st : EptState) (ps qs : List Nat) :
    freeAll st (ps ++ qs) = freeAll (freeAll st ps) qs := by
  unfold freeAll
  exact List.foldl_append freeOne st ps qs

theorem freeAll_fields : ∀ (ps : List Nat) (st : EptState),
    (freeAll st ps).heap = delAll st.heap ps ∧
    (freeAll st ps).freeCount = st.freeCount + ps.length ∧
    (freeAll st ps).pml4 = st.pml4 ∧
    (freeAll st ps).allocCount = st.allocCount ∧
    (freeAll st ps).supply = st.supply ∧
    (freeAll st ps).eptp = st.eptp
  | [], st => ⟨rfl, rfl, rfl, rfl, rfl, rfl⟩
  | p :: ps, st => by
    have ih := freeAll_fields ps (freeOne st p)
    refine ⟨ih.1, ?_, ih.2.2.1, ih.2.2.2.1, ih.2.2.2.2.1, ih.2.2.2.2.2⟩
    have h1 : (freeOne st p).freeCount = st.freeCount + 1 := rfl
    have h2 : (freeAll st (p :: ps)).freeCount = (freeOne st p).freeCount + ps.length :=
      ih.2.1
    rw [h2, h1, List.length_cons]
    omega

theorem delAll_get_of_not_mem : ∀ (ps : List Nat) (h : List (Nat × Table)) (q : Nat),
    q ∉ ps → heapGet (delAll h ps) q = heapGet h q
  | [], _, _, _ => rfl
  | p :: ps, h, q, hq => by
    have h1 : q ∉ ps := fun hc => hq (List.mem_cons_of_mem _ hc)
    have h2 : q ≠ p := fun hc => hq (hc ▸ List.mem_cons_self p ps)
    have h3 : delAll h (p :: ps) = delAll (heapDel h p) ps := rfl
    rw [h3, delAll_get_of_not_mem ps (heapDel h p) q h1, heapGet_heapDel_ne h2]

theorem liveEntry_false {e : Nat} (h : e = 0 ∨ entryLargeBit e = 1) :
    liveEntry e = false := by
  rcases h with h | h <;> simp [liveEntry, h]

theorem liveEntry_true {e : Nat} (h : ¬(e = 0 ∨ entryLargeBit e = 1)) :
    liveEntry e = true := by
  push_neg at h
  simp [liveEntry, h.1, h.2]

theorem cleanupPD_fold : ∀ (t : List Nat) (st : EptState),
    t.foldl (fun acc e =>
        if e = 0 ∨ entryLargeBit e = 1 then acc else freeOne acc (entryPFN e)) st
      = freeAll st ((t.filter liveEntry).map entryPFN)
  | [], _ => rfl
  | e :: t, st => by
    by_cases h : e = 0 ∨ entryLargeBit e = 1
    · rw [List.foldl_cons, if_pos h, List.filter_cons, liveEntry_false h]
      exact cleanupPD_fold t st
    · rw [List.foldl_cons, if_neg h, List.filter_cons, liveEntry_true h, if_pos rfl,
        List.map_cons]
      have h2 : freeAll st (entryPFN e :: (t.filter liveEntry).map entryPFN)
          = freeAll (freeOne st (entryPFN e)) ((t.filter liveEntry).map entryPFN) := rfl
      rw [h2]
      exact cleanupPD_fold t (freeOne st (entryPFN e))

theorem cleanupPD_eq_freeAll {h₀ : List (Nat × Table)} (st : EptState) (pd : Nat)
    (hframe : heapGet st.heap pd = heapGet h₀ pd) :
    cleanupPD st pd = freeAll st (pdFrees h₀ pd) := by
  unfold cleanupPD pdFrees
  rw [hframe]
  cases heapGet h₀ pd with
  | none => rfl
  | some t => exact cleanupPD_fold t st

theorem foldl_freeAll {h₀ : List (Nat × Table)} {step : EptState → Nat → EptState}
    {part : Nat → List Nat}
    (hstep : ∀ e, ∀ st' : EptState,
      (∀ q ∈ part e, heapGet st'.heap q = heapGet h₀ q) → (part e).Nodup →
      step st' e = freeAll st' (part e)) :
    ∀ (es : List Nat) (st : EptState),
    (∀ q ∈ es.flatMap part, heapGet st.heap q = heapGet h₀ q) →
    (es.flatMap part).Nodup →
    es.foldl step st = freeAll st (es.flatMap part)
  | [], st, _, _ => rfl
  | e :: es, st, hF, hN => by
    rw [List.flatMap_cons] at hN hF
    have hFe : ∀ q ∈ part e, heapGet st.heap q = heapGet h₀ q := fun q hq =>
      hF q (List.mem_append_left _ hq)
    have h1 : step st e = freeAll st (part e) :=
      hstep e st hFe hN.of_append_left
    have hdisj := List.disjoint_of_nodup_append hN
    have hFr : ∀ q ∈ es.flatMap part, heapGet (step st e).heap q = heapGet h₀ q := by
      intro q hq
      rw [h1, (freeAll_fields (part e) st).1,
        delAll_get_of_not_mem _ _ _ (fun hc => hdisj hc hq)]
      exact hF q (List.mem_append_right _ hq)
    have ih := foldl_freeAll hstep es (step st e) hFr hN.of_append_right
    rw [List.foldl_cons, ih, h1, List.flatMap_cons, freeAll_append]

theorem cleanupPDPT_eq_freeAll {h₀ : List (Nat × Table)} (st : EptState) (pdpt : Nat)
    (hself : heapGet st.heap pdpt = heapGet h₀ pdpt)
    (hframe : ∀ q ∈ pdptFrees h₀ pdpt, heapGet st.heap q = heapGet h₀ q)
    (hN : (pdptFrees h₀ pdpt).Nodup) :
    cleanupPDPT st pdpt = freeAll st (pdptFrees h₀ pdpt) := by
  unfold cleanupPDPT
  rw [hself]
  cases hget : heapGet h₀ pdpt with
  | none =>
    have h1 : pdptFrees h₀ pdpt = [] := by
      unfold pdptFrees
      rw [hget]
    rw [h1]
    rfl
  | some t =>
    have h1 : pdptFrees h₀ pdpt = t.flatMap (fun e =>
        if liveEntry e then pdFrees h₀ (entryPFN e) ++ [entryPFN e] else []) := by
      unfold pdptFrees
      rw [hget]
    rw [h1] at hframe hN ⊢
    refine foldl_freeAll ?_ t st hframe hN
    intro e st' hq hnd
    by_cases h : e = 0 ∨ entryLargeBit e = 1
    · rw [if_pos h, liveEntry_false h, if_neg (Bool.false_ne_true)]
      rfl
    · have hl := liveEntry_true h
      rw [hl, if_pos rfl] at hq hnd
      rw [if_neg h, hl, if_pos rfl]
      have hc : heapGet st'.heap (entryPFN e) = heapGet h₀ (entryPFN e) :=
        hq _ (List.mem_append_right _ (List.mem_singleton_self _))
      rw [cleanupPD_eq_freeAll st' (entryPFN e) hc, freeAll_append]
      rfl

theorem cleanup_eq_freeAll (st : EptState) {root : Nat} (hr : st.pml4 = some root)
    (hN : (rootFrees st.heap root).Nodup) :
    cleanup st = { freeAll st (rootFrees st.heap root ++ [root]) with pml4 := none } := by
  unfold cleanup
  rw [hr]
  dsimp only
  cases hget : heapGet st.heap root with
  | none =>
    have h1 : rootFrees st.heap root = [] := by
      unfold rootFrees
      rw [hget]
    rw [h1]
    rfl
  | some t =>
    have h1 : rootFrees st.heap root = t.flatMap (fun e =>
        if e = 0 then [] else pdptFrees st.heap (entryPFN e) ++ [entryPFN e]) := by
      unfold rootFrees
      rw [hget]
    rw [h1] at hN ⊢
    have hfold : t.foldl (fun acc e => if e = 0 then acc
          else freeOne (cleanupPDPT acc (entryPFN e)) (entryPFN e)) st
        = freeAll st (t.flatMap (fun e =>
            if e = 0 then [] else pdptFrees st.heap (entryPFN e) ++ [entryPFN e])) := by
      refine foldl_freeAll ?_ t st (fun q _ => rfl) hN
      intro e st' hq hnd
      by_cases h : e = 0
      · rw [if_pos h, if_pos h]
        rfl
      · rw [if_neg h] at hq hnd ⊢
        have hc : heapGet st'.heap (entryPFN e) = heapGet st.heap (entryPFN e) :=
          hq _ (List.mem_append_right _ (List.mem_singleton_self _))
        have hfr : ∀ q ∈ pdptFrees st.heap (entryPFN e),
            heapGet st'.heap q = heapGet st.heap q := fun q hqm =>
          hq q (List.mem_append_left _ hqm)
        rw [cleanupPDPT_eq_freeAll st' (entryPFN e) hc hfr hnd.of_append_left,
          if_neg h, freeAll_append]
        rfl
    dsimp only
    rw [hfold, freeAll_append]
    rfl

theorem flatMap_pure : ∀ (L : List Nat), (L.flatMap fun x => [x]) = L
  | [] => rfl
  | x :: L => by
    rw [List.flatMap_cons, flatMap_pure L]
    rfl

theorem flatMap_perm_congr {f g : Nat → List Nat} :
    ∀ (cs : List Nat), (∀ e ∈ cs, (f e).Perm (g e)) →
      (cs.flatMap f).Perm (cs.flatMap g)
  | [], _ => List.Perm.refl _
  | c :: cs, h => by
    rw [List.flatMap_cons, List.flatMap_cons]
    exact (h c (List.mem_cons_self c cs)).append
      (flatMap_perm_congr cs fun e he => h e (List.mem_cons_of_mem _ he))

theorem flatMap_entry_split (g : Nat → List Nat) :
    ∀ (t : List Nat), (t.flatMap fun e => if e = 0 then [] else g (entryPFN e))
      = ((t.filter fun e => e ≠ 0).map entryPFN).flatMap g
  | [] => rfl
  | e :: t => by
    by_cases hz : e = 0 <;>
      simp [List.flatMap_cons, List.filter_cons, hz, flatMap_entry_split g t]

theorem pdFrees_perm {h : List (Nat × Table)} {pd b : Nat} (hwf : wfTable h 2 pd b) :
    (pdFrees h pd ++ [pd]).Perm (treePfns h 2 pd) := by
  obtain ⟨t, hget, hlen, hent⟩ := hwf
  have hfilter : t.filter liveEntry = t.filter (fun e => e ≠ 0) := by
    apply List.filter_congr
    intro e he
    obtain ⟨i, hi, hgi⟩ := exists_index_of_mem he
    rcases hent i (hlen ▸ hi) with hz | ⟨hmk, -⟩
    · rw [hgi] at hz
      simp [liveEntry, hz]
    · rw [hgi] at hmk
      have hne : e ≠ 0 := fun hc => mkNonLeaf_ne_zero _ (hc ▸ hmk)
      have hlb : entryLargeBit e = 0 := by
        rw [← hmk]
        exact entryLargeBit_mkNonLeaf _
      simp [liveEntry, hne, hlb]
  have h1 : pdFrees h pd = (t.filter (fun e => e ≠ 0)).map entryPFN := by
    have e1 : pdFrees h pd = match heapGet h pd with
        | none => []
        | some t => (t.filter liveEntry).map entryPFN := rfl
    rw [e1, hget]
    dsimp only
    rw [hfilter]
  have h3 : ∀ L : List Nat, L.flatMap (treePfns h 1) = L := by
    intro L
    induction L with
    | nil => rfl
    | cons x L ih =>
      rw [List.flatMap_cons, ih]
      rfl
  have h2 : treePfns h 2 pd = pd :: (t.filter (fun e => e ≠ 0)).map entryPFN := by
    have e1 : treePfns h 2 pd = pd :: (match heapGet h pd with
        | none => []
        | some t => ((t.filter (fun e => e ≠ 0)).map entryPFN).flatMap (treePfns h 1)) := rfl
    rw [e1, hget]
    dsimp only
    rw [h3]
  rw [h1, h2]
  exact List.perm_append_comm

theorem pdptFrees_perm {h : List (Nat × Table)} {pdpt b : Nat}
    (hwf : wfTable h 3 pdpt b) :
    (pdptFrees h pdpt ++ [pdpt]).Perm (treePfns h 3 pdpt) := by
  obtain ⟨t, hget, hlen, hent⟩ := hwf
  have hmem : ∀ e ∈ t, e = 0 ∨
      (mkNonLeaf (entryPFN e) = e ∧ ∃ c, wfTable h 2 (entryPFN e) c) := by
    intro e he
    obtain ⟨i, hi, hgi⟩ := exists_index_of_mem he
    rcases hent i (hlen ▸ hi) with hz | ⟨hmk, hwfc⟩
    · exact Or.inl (hgi ▸ hz)
    · exact Or.inr ⟨hgi ▸ hmk, ⟨b * 512 + i, hgi ▸ hwfc⟩⟩
  have h1 : pdptFrees h pdpt = t.flatMap (fun e =>
      if e = 0 then [] else pdFrees h (entryPFN e) ++ [entryPFN e]) := by
    have e1 : pdptFrees h pdpt = match heapGet h pdpt with
        | none => []
        | some t => t.flatMap (fun e =>
            if liveEntry e then pdFrees h (entryPFN e) ++ [entryPFN e] else []) := rfl
    rw [e1, hget]
    dsimp only
    apply flatMap_congr
    intro e he
    rcases hmem e he with hz | ⟨hmk, -⟩
    · rw [if_pos hz, liveEntry_false (Or.inl hz)]
      rfl
    · have hne : e ≠ 0 := fun hc => mkNonLeaf_ne_zero _ (hc ▸ hmk)
      have hlb : entryLargeBit e = 0 := by
        rw [← hmk]
        exact entryLargeBit_mkNonLeaf _
      rw [if_neg hne, liveEntry_true (by simp [hne, hlb])]
      rfl
  have h2 : treePfns h 3 pdpt
      = pdpt :: ((t.filter (fun e => e ≠ 0)).map entryPFN).flatMap (treePfns h 2) := by
    have e1 : treePfns h 3 pdpt = pdpt :: (match heapGet h pdpt with
        | none => []
        | some t => ((t.filter (fun e => e ≠ 0)).map entryPFN).flatMap (treePfns h 2)) := rfl
    rw [e1, hget]
  rw [h1, h2, flatMap_entry_split (fun c => pdFrees h c ++ [c]) t]
  refine List.perm_append_comm.trans (List.Perm.cons pdpt ?_)
  apply flatMap_perm_congr
  intro c hc
  obtain ⟨e, hef, rfl⟩ := List.mem_map.1 hc
  have het : e ∈ t := (List.mem_filter.1 hef).1
  rcases hmem e het with hz | ⟨-, c', hwfc⟩
  · exact absurd (by simpa using (List.mem_filter.1 hef).2) (by simp [hz])
  · exact pdFrees_perm hwfc

theorem rootFrees_perm {h : List (Nat × Table)} {root : Nat}
    (hwf : wfTable h 4 root 0) :
    (rootFrees h root ++ [root]).Perm (treePfns h 4 root) := by
  obtain ⟨t, hget, hlen, hent⟩ := hwf
  have hmem : ∀ e ∈ t, e = 0 ∨ ∃ c, wfTable h 3 (entryPFN e) c := by
    intro e he
    obtain ⟨i, hi, hgi⟩ := exists_index_of_mem he
    rcases hent i (hlen ▸ hi) with hz | ⟨-, hwfc⟩
    · exact Or.inl (hgi ▸ hz)
    · exact Or.inr ⟨0 * 512 + i, hgi ▸ hwfc⟩
  have h1 : rootFrees h root = t.flatMap (fun e =>
      if e = 0 then [] else pdptFrees h (entryPFN e) ++ [entryPFN e]) := by
    have e1 : rootFrees h root = match heapGet h root with
        | none => []
        | some t => t.flatMap (fun e =>
            if e = 0 then [] else pdptFrees h (entryPFN e) ++ [entryPFN e]) := rfl
    rw [e1, hget]
  have h2 : treePfns h 4 root
      = root :: ((t.filter (fun e => e ≠ 0)).map entryPFN).flatMap (treePfns h 3) := by
    have e1 : treePfns h 4 root = root :: (match heapGet h root with
        | none => []
        | some t => ((t.filter (fun e => e ≠ 0)).map entryPFN).flatMap (treePfns h 3)) := rfl
    rw [e1, hget]
  rw [h1, h2, flatMap_entry_split (fun c => pdptFrees h c ++ [c]) t]
  refine List.perm_append_comm.trans (List.Perm.cons root ?_)
  apply flatMap_perm_congr
  intro c hc
  obtain ⟨e, hef, rfl⟩ := List.mem_map.1 hc
  have het : e ∈ t := (List.mem_filter.1 hef).1
  rcases hmem e het with hz | ⟨c', hwfc⟩
  · exact absurd (by simpa using (List.mem_filter.1 hef).2) (by simp [hz])
  · exact pdptFrees_perm hwfc

theorem cleanup_of_pml4_none {st : EptState} (h : st.pml4 = none) : cleanup st = st := by
  unfold cleanup
  rw [h]

theorem cleanup_counts (st : EptState) (hG : GInv st) :
    (cleanup st).freeCount = (cleanup st).allocCount ∧ (cleanup st).pml4 = none := by
  obtain ⟨r, hr, hwf, hnd, hperm, -, -, hcnt⟩ := hG
  have hperm2 : (rootFrees st.heap r ++ [r]).Perm (treePfns st.heap 4 r) :=
    rootFrees_perm hwf
  have hN : (rootFrees st.heap r).Nodup :=
    (hperm2.nodup_iff.2 hnd).of_append_left
  have hclean := cleanup_eq_freeAll st hr hN
  have hfields := freeAll_fields (rootFrees st.heap r ++ [r]) st
  constructor
  · have hfc : (cleanup st).freeCount
        = st.freeCount + (rootFrees st.heap r ++ [r]).length := by
      rw [hclean]
      exact hfields.2.1
    have hac : (cleanup st).allocCount = st.allocCount := by
      rw [hclean]
      exact hfields.2.2.2.1
    rw [hfc, hac, hperm2.length_eq, ← hperm.length_eq, hcnt]
  · rw [hclean]

theorem GInv_fields {st st' : EptState} (h1 : st'.pml4 = st.pml4)
    (h2 : st'.heap = st.heap) (h3 : st'.supply = st.supply)
    (h4 : st'.allocCount = st.allocCount) (h5 : st'.freeCount = st.freeCount)
    (hG : GInv st) : GInv st' := by
  unfold GInv at hG ⊢
  rw [h1, h2, h3, h4, h5]
  exact hG

/-! ## The global invariant through the identity-table build -/

theorem mapLoop_GInv (root a e : Nat) (st : EptState) (hG : GInv st)
    (hr : st.pml4 = some root) (he : e ≤ 2 ^ 48) :
    GInv (mapLoop root a e st).1 ∧ (mapLoop root a e st).1.pml4 = some root := by
  rw [mapLoop]
  split
  · rename_i hlt
    have hmp : mapPage st a = populate a VMX_EPT_PAGE_WALK_LENGTH st root := by
      unfold mapPage VMX_EPT_PAGE_WALK_LENGTH
      rw [hr]
    have hm := mapPage_GInv st a hG (by omega)
    rcases hp : populate a VMX_EPT_PAGE_WALK_LENGTH st root with ⟨st1, ok⟩
    rw [hmp, hp] at hm
    have hG1 : GInv st1 := hm.1
    have hr1 : st1.pml4 = some root := by
      rw [hm.2.1, hr]
    cases ok
    · exact ⟨hG1, hr1⟩
    · exact mapLoop_GInv root (a + 4096) e st1 hG1 hr1 he
  · exact ⟨hG, hr⟩
  termination_by e - a
  decreasing_by omega

theorem buildRanges_GInv (root : Nat) :
    ∀ (ranges : List (Nat × Nat)) (st : EptState), GInv st →
    st.pml4 = some root → (∀ pr ∈ ranges, pr.1 + pr.2 ≤ 2 ^ 48) →
    GInv (buildRanges root ranges st).1 ∧
      (buildRanges root ranges st).1.pml4 = some root
  | [], _, hG, hr, _ => ⟨hG, hr⟩
  | (base, bytes) :: rest, st, hG, hr, hb => by
    simp only [buildRanges]
    split
    · exact ⟨hG, hr⟩
    · rcases hm : mapLoop root base (base + bytes - 1) st with ⟨st1, ok⟩
      have h1 := mapLoop_GInv root base (base + bytes - 1) st hG hr (by
        have := hb (base, bytes) (List.mem_cons_self _ _)
        omega)
      rw [hm] at h1
      cases ok
      · exact h1
      · exact buildRanges_GInv root rest st1 h1.1 h1.2
          (fun pr hpr => hb pr (List.mem_cons_of_mem _ hpr))

theorem buildIdentityTables_GInv (root : Nat) (ranges : List (Nat × Nat))
    (apicBase : Nat) (st : EptState) (hG : GInv st) (hr : st.pml4 = some root)
    (hb : ∀ pr ∈ ranges, pr.1 + pr.2 ≤ 2 ^ 48) (hapic : apicBase < 2 ^ 48) :
    GInv (buildIdentityTables root ranges apicBase st).1 ∧
      (buildIdentityTables root ranges apicBase st).1.pml4 = some root := by
  unfold buildIdentityTables
  rcases hbr : buildRanges root ranges st with ⟨st1, ok⟩
  have h1 := buildRanges_GInv root ranges st hG hr hb
  rw [hbr] at h1
  cases ok
  · exact h1
  · have hmp : mapPage st1 apicBase = populate apicBase VMX_EPT_PAGE_WALK_LENGTH st1 root := by
      unfold mapPage VMX_EPT_PAGE_WALK_LENGTH
      rw [h1.2]
    have hm := mapPage_GInv st1 apicBase h1.1 hapic
    rw [hmp] at hm
    exact ⟨hm.1, by rw [hm.2.1, h1.2]⟩

/-- C7: cleanup is complete and idempotent.  For any `ShvVmxEptInitialize`
run from a pristine state — including a run that fails mid-build from
allocation exhaustion, in which case the function itself invokes
`ShvVmxEptCleanup` on the partially built tree — and, on success, any
subsequent sequence of `map_page` calls, `ShvVmxEptCleanup` frees exactly
as many pages as were allocated (the free counter catches up with the
allocation counter), nulls the PML4 pointer, and a subsequent
`ShvVmxEptCleanup` call, seeing the `NULL` PML4, is a no-op. -/
theorem cleanup_complete (ranges : List (Nat × Nat)) (apicBase e0 : Nat)
    (supply addrs : List Nat)
    (hnd : supply.Nodup) (hlt : ∀ p ∈ supply, p < 2 ^ 41)
    (hb : ∀ pr ∈ ranges, pr.1 + pr.2 ≤ 2 ^ 48) (hapic : apicBase < 2 ^ 48)
    (haddr : ∀ a ∈ addrs, a < 2 ^ 48) :
    ((ShvVmxEptInitialize ranges apicBase (scratchState supply e0)).2 = false →
      (ShvVmxEptInitialize ranges apicBase (scratchState supply e0)).1.freeCount
        = (ShvVmxEptInitialize ranges apicBase (scratchState supply e0)).1.allocCount ∧
      (ShvVmxEptInitialize ranges apicBase (scratchState supply e0)).1.pml4 = none ∧
      cleanup (ShvVmxEptInitialize ranges apicBase (scratchState supply e0)).1
        = (ShvVmxEptInitialize ranges apicBase (scratchState supply e0)).1) ∧
    ((ShvVmxEptInitialize ranges apicBase (scratchState supply e0)).2 = true →
      (cleanup (runMapPages
          (ShvVmxEptInitialize ranges apicBase (scratchState supply e0)).1 addrs)).freeCount
        = (cleanup (runMapPages
            (ShvVmxEptInitialize ranges apicBase (scratchState supply e0)).1 addrs)).allocCount ∧
      (cleanup (runMapPages
          (ShvVmxEptInitialize ranges apicBase (scratchState supply e0)).1 addrs)).pml4 = none ∧
      cleanup (cleanup (runMapPages
          (ShvVmxEptInitialize ranges apicBase (scratchState supply e0)).1 addrs))
        = cleanup (runMapPages
            (ShvVmxEptInitialize ranges apicBase (scratchState supply e0)).1 addrs)) := by
  unfold ShvVmxEptInitialize
  cases hsup : (scratchState supply e0).supply with
  | nil =>
    refine ⟨fun _ => ⟨rfl, rfl, cleanup_of_pml4_none rfl⟩, fun hc => absurd hc (by simp)⟩
  | cons p rest =>
    have hsup' : supply = p :: rest := hsup
    dsimp only
    have hG1 : GInv { pml4 := some p, heap := (scratchState supply e0).heap ++ [(p, zeroTable)], supply := rest, allocCount := (scratchState supply e0).allocCount + 1, freeCount := (scratchState supply e0).freeCount, eptp := (scratchState supply e0).eptp } := by
      refine GInv_fields rfl rfl rfl rfl rfl (freshEpt_GInv p rest ?_ ?_)
      · rw [hsup'] at hnd
        exact (List.nodup_cons.1 hnd).2
      · intro q hq
        refine ⟨hlt q (by rw [hsup']; exact List.mem_cons_of_mem _ hq), ?_⟩
        intro hqp
        rw [hsup'] at hnd
        exact (List.nodup_cons.1 hnd).1 (hqp ▸ hq)
    rcases hbt : buildIdentityTables p ranges apicBase { pml4 := some p, heap := (scratchState supply e0).heap ++ [(p, zeroTable)], supply := rest, allocCount := (scratchState supply e0).allocCount + 1, freeCount := (scratchState supply e0).freeCount, eptp := (scratchState supply e0).eptp } with ⟨st2, ok⟩
    have hG2 := buildIdentityTables_GInv p ranges apicBase _ hG1 rfl hb hapic
    rw [hbt] at hG2
    cases ok
    · dsimp only
      refine ⟨fun _ => ?_, fun hc => absurd hc (by simp)⟩
      have hc := cleanup_counts st2 hG2.1
      exact ⟨hc.1, hc.2, cleanup_of_pml4_none hc.2⟩
    · dsimp only
      refine ⟨fun hc => absurd hc (by simp), fun _ => ?_⟩
      have hG3 : GInv { st2 with eptp := eptpSet st2.eptp p } :=
        GInv_fields rfl rfl rfl rfl rfl hG2.1
      have hG4 := runMapPages_GInv addrs { st2 with eptp := eptpSet st2.eptp p } hG3 haddr
      have hc := cleanup_counts _ hG4.1
      exact ⟨hc.1, hc.2, cleanup_of_pml4_none hc.2⟩

theorem cleanup_complete_witness :
    ((ShvVmxEptInitialize [] 0 (scratchState [1, 2, 3, 4] 0)).2 = true) ∧
    ((cleanup (runMapPages
        (ShvVmxEptInitialize [] 0 (scratchState [1, 2, 3, 4] 0)).1 [4096])).freeCount
      = (cleanup (runMapPages
          (ShvVmxEptInitialize [] 0 (scratchState [1, 2, 3, 4] 0)).1 [4096])).allocCount ∧
    (cleanup (runMapPages
        (ShvVmxEptInitialize [] 0 (scratchState [1, 2, 3, 4] 0)).1 [4096])).pml4 = none ∧
    cleanup (cleanup (runMapPages
        (ShvVmxEptInitialize [] 0 (scratchState [1, 2, 3, 4] 0)).1 [4096]))
      = cleanup (runMapPages
          (ShvVmxEptInitialize [] 0 (scratchState [1, 2, 3, 4] 0)).1 [4096])) :=
  ⟨by decide, (cleanup_complete [] 0 0 [1, 2, 3, 4] [4096] (by decide) (by decide)
    (by decide) (by decide) (by decide)).2 (by decide)⟩

/-! ## Coverage of the identity map built by `ShvVmxEptInitialize` -/

theorem mappedIn_congr {h : List (Nat × Table)} {root : Nat} {F G : Nat → Prop}
    (hFG : ∀ f, f < 2 ^ 36 → (F f ↔ G f)) (hm : mappedIn h root F) :
    mappedIn h root G :=
  fun f hf => (hm f hf).trans (hFG f hf)

theorem mappedIn_zeroTable {h : List (Nat × Table)} {root : Nat}
    (hget : heapGet h root = some zeroTable) : mappedIn h root (fun _ => False) := by
  intro f hf
  rw [walkLeaf_zeroTable 4 root (f * 4096) hget]
  simp

theorem mapPage_cov {st : EptState} {root : Nat} {F : Nat → Prop} (a : Nat)
    (hG : GInv st) (hr : st.pml4 = some root) (ha : a < 2 ^ 48)
    (hm : mappedIn st.heap root F) (hok : (mapPage st a).2 = true) :
    mappedIn (mapPage st a).1.heap root (fun f => f = a / 4096 ∨ F f) := by
  obtain ⟨k10, k12, -⟩ := (mapPage_GInv st a hG ha).2.2.2.2.2 root hr
  intro f hf
  by_cases hfa : f = a / 4096
  · subst hfa
    rw [walkLeaf_eq_of_frame _ 4 root (show a / 4096 * 4096 / 4096 = a / 4096 by omega),
      k10 hok]
    constructor
    · exact fun _ => Or.inl rfl
    · intro _
      split
      · exact mkLeaf_ne_zero _
      · rename_i hne
        exact hne
  · rw [k12 (f * 4096) (by omega) (by omega)]
    refine (hm f hf).trans ?_
    constructor
    · exact fun hF => Or.inr hF
    · rintro (hc | hF)
      · exact absurd hc hfa
      · exact hF

theorem mapLoop_cov (root : Nat) (a e : Nat) (st : EptState) (F : Nat → Prop)
    (hG : GInv st) (hr : st.pml4 = some root) (ha : a % 4096 = 0) (he : e ≤ 2 ^ 48)
    (hm : mappedIn st.heap root F) (hok : (mapLoop root a e st).2 = true) :
    mappedIn (mapLoop root a e st).1.heap root
      (fun f => (a / 4096 ≤ f ∧ f * 4096 < e) ∨ F f) := by
  by_cases hlt : a < e
  · rw [mapLoop, dif_pos hlt] at hok ⊢
    rcases hp : populate a VMX_EPT_PAGE_WALK_LENGTH st root with ⟨st1, ok⟩
    rw [hp] at hok
    cases ok
    · exact absurd hok (by simp)
    · dsimp only at hok ⊢
      have hmp : mapPage st a = (st1, true) := by
        unfold mapPage VMX_EPT_PAGE_WALK_LENGTH
        rw [hr]
        exact hp
      have hcov1 : mappedIn st1.heap root (fun f => f = a / 4096 ∨ F f) := by
        have hc := mapPage_cov a hG hr (by omega) hm (by rw [hmp])
        rw [hmp] at hc
        exact hc
      have hm1 := mapPage_GInv st a hG (by omega)
      rw [hmp] at hm1
      have hG1 : GInv st1 := hm1.1
      have hr1 : st1.pml4 = some root := by
        rw [hm1.2.1, hr]
      have ih := mapLoop_cov root (a + 4096) e st1 (fun f => f = a / 4096 ∨ F f)
        hG1 hr1 (by omega) he hcov1 hok
      refine mappedIn_congr ?_ ih
      intro f _
      constructor
      · rintro (⟨h1, h2⟩ | hfa | hF)
        · exact Or.inl ⟨by omega, h2⟩
        · subst hfa
          exact Or.inl ⟨Nat.le_refl _, by omega⟩
        · exact Or.inr hF
      · rintro (⟨h1, h2⟩ | hF)
        · by_cases hfa : f = a / 4096
          · exact Or.inr (Or.inl hfa)
          · exact Or.inl ⟨by omega, h2⟩
        · exact Or.inr (Or.inr hF)
  · rw [mapLoop, dif_neg hlt]
    refine mappedIn_congr ?_ hm
    intro f _
    constructor
    · exact fun hF => Or.inr hF
    · rintro (⟨h1, h2⟩ | hF)
      · exact absurd h2 (by omega)
      · exact hF
  termination_by e - a
  decreasing_by omega

theorem buildRanges_cov (root : Nat) :
    ∀ (ranges : List (Nat × Nat)) (st : EptState) (F : Nat → Prop), GInv st →
    st.pml4 = some root →
    (∀ pr ∈ ranges, pr.1 % 4096 = 0 ∧ pr.2 % 4096 = 0 ∧ pr.1 + pr.2 ≤ 2 ^ 48 ∧
      ¬(pr.1 = 0 ∧ pr.2 = 0)) →
    mappedIn st.heap root F → (buildRanges root ranges st).2 = true →
    mappedIn (buildRanges root ranges st).1.heap root
      (fun f => (∃ pr ∈ ranges, pr.1 / 4096 ≤ f ∧ f < pr.1 / 4096 + pr.2 / 4096) ∨ F f)
  | [], st, F, _, _, _, hm, _ => by
    refine mappedIn_congr ?_ hm
    intro f _
    simp
  | (base, bytes) :: rest, st, F, hG, hr, hrg, hm, hok => by
    obtain ⟨hb1, hb2, hb3, hb4⟩ := hrg (base, bytes) (List.mem_cons_self _ _)
    dsimp only at hb1 hb2 hb3 hb4
    simp only [buildRanges] at hok ⊢
    rw [if_neg hb4] at hok ⊢
    rcases hml : mapLoop root base (base + bytes - 1) st with ⟨st1, ok⟩
    rw [hml] at hok
    cases ok
    · exact absurd hok (by simp)
    · dsimp only at hok ⊢
      have h1 := mapLoop_GInv root base (base + bytes - 1) st hG hr (by omega)
      rw [hml] at h1
      have hcov1 := mapLoop_cov root base (base + bytes - 1) st F hG hr hb1
        (by omega) hm (by rw [hml])
      rw [hml] at hcov1
      have hcov2 : mappedIn st1.heap root
          (fun f => (base / 4096 ≤ f ∧ f < base / 4096 + bytes / 4096) ∨ F f) := by
        refine mappedIn_congr ?_ hcov1
        intro f _
        constructor
        · rintro (⟨u1, u2⟩ | hF)
          · exact Or.inl ⟨u1, by omega⟩
          · exact Or.inr hF
        · rintro (⟨u1, u2⟩ | hF)
          · exact Or.inl ⟨u1, by omega⟩
          · exact Or.inr hF
      have ih := buildRanges_cov root rest st1 _ h1.1 h1.2
        (fun pr hpr => hrg pr (List.mem_cons_of_mem _ hpr)) hcov2 hok
      refine mappedIn_congr ?_ ih
      intro f _
      constructor
      · rintro (⟨pr, hpr, hp⟩ | (⟨u1, u2⟩ | hF))
        · exact Or.inl ⟨pr, List.mem_cons_of_mem _ hpr, hp⟩
        · exact Or.inl ⟨(base, bytes), List.mem_cons_self _ _, u1, u2⟩
        · exact Or.inr hF
      · rintro (⟨pr, hpr, hp⟩ | hF)
        · rcases List.mem_cons.1 hpr with rfl | hpr'
          · exact Or.inr (Or.inl hp)
          · exact Or.inl ⟨pr, hpr', hp⟩
        · exact Or.inr (Or.inr hF)

theorem buildIdentityTables_cov (root : Nat) (ranges : List (Nat × Nat))
    (apicBase : Nat) (st : EptState) (F : Nat → Prop) (hG : GInv st)
    (hr : st.pml4 = some root)
    (hrg : ∀ pr ∈ ranges, pr.1 % 4096 = 0 ∧ pr.2 % 4096 = 0 ∧ pr.1 + pr.2 ≤ 2 ^ 48 ∧
      ¬(pr.1 = 0 ∧ pr.2 = 0))
    (hapic : apicBase < 2 ^ 48) (hm : mappedIn st.heap root F)
    (hok : (buildIdentityTables root ranges apicBase st).2 = true) :
    (buildIdentityTables root ranges apicBase st).1.pml4 = some root ∧
    mappedIn (buildIdentityTables root ranges apicBase st).1.heap root
      (fun f => f = apicBase / 4096 ∨
        (∃ pr ∈ ranges, pr.1 / 4096 ≤ f ∧ f < pr.1 / 4096 + pr.2 / 4096) ∨ F f) := by
  unfold buildIdentityTables at hok ⊢
  rcases hbr : buildRanges root ranges st with ⟨st1, ok⟩
  rw [hbr] at hok
  cases ok
  · exact absurd hok (by simp)
  · dsimp only at hok ⊢
    have h1 := buildRanges_GInv root ranges st hG hr
      (fun pr hpr => (hrg pr hpr).2.2.1)
    rw [hbr] at h1
    have hcovR := buildRanges_cov root ranges st F hG hr hrg hm (by rw [hbr])
    rw [hbr] at hcovR
    have hmp : mapPage st1 apicBase = populate apicBase VMX_EPT_PAGE_WALK_LENGTH st1 root := by
      unfold mapPage VMX_EPT_PAGE_WALK_LENGTH
      rw [h1.2]
    have hcovA := mapPage_cov apicBase h1.1 h1.2 hapic hcovR (by rw [hmp]; exact hok)
    rw [hmp] at hcovA
    have hm1 := mapPage_GInv st1 apicBase h1.1 hapic
    rw [hmp] at hm1
    exact ⟨by rw [hm1.2.1, h1.2], hcovA⟩

/-- C6: after a successful `ShvVmxEptInitialize` on a physical-memory range
list (page-aligned ranges inside the 48-bit space, the terminating zero
sentinel modelled by the end of the list), the set of 4 KiB guest-physical
frames that reach a nonzero leaf PTE from the PML4 is exactly the union of
the frames of all the ranges plus the single frame of the APIC base: every
page of every range is mapped, and no other page is. -/
theorem initialize_coverage (ranges : List (Nat × Nat)) (apicBase e0 : Nat)
    (supply : List Nat) (hnd : supply.Nodup) (hlt : ∀ p ∈ supply, p < 2 ^ 41)
    (hrg : ∀ pr ∈ ranges, pr.1 % 4096 = 0 ∧ pr.2 % 4096 = 0 ∧ pr.1 + pr.2 ≤ 2 ^ 48 ∧
      ¬(pr.1 = 0 ∧ pr.2 = 0))
    (hapic : apicBase < 2 ^ 48)
    (hok : (ShvVmxEptInitialize ranges apicBase (scratchState supply e0)).2 = true) :
    ∃ r, (ShvVmxEptInitialize ranges apicBase (scratchState supply e0)).1.pml4 = some r ∧
      ∀ f, f < 2 ^ 36 →
        ((walkLeaf (ShvVmxEptInitialize ranges apicBase
            (scratchState supply e0)).1.heap 4 r (f * 4096) ≠ 0)
          ↔ rangeFrames ranges apicBase f = true) := by
  unfold ShvVmxEptInitialize at hok ⊢
  cases hsup : (scratchState supply e0).supply with
  | nil =>
    rw [hsup] at hok
    exact absurd hok (by simp)
  | cons p rest =>
    have hsup' : supply = p :: rest := hsup
    rw [hsup] at hok
    dsimp only at hok ⊢
    have hG1 : GInv { pml4 := some p, heap := (scratchState supply e0).heap ++ [(p, zeroTable)], supply := rest, allocCount := (scratchState supply e0).allocCount + 1, freeCount := (scratchState supply e0).freeCount, eptp := (scratchState supply e0).eptp } := by
      refine GInv_fields rfl rfl rfl rfl rfl (freshEpt_GInv p rest ?_ ?_)
      · rw [hsup'] at hnd
        exact (List.nodup_cons.1 hnd).2
      · intro q hq
        refine ⟨hlt q (by rw [hsup']; exact List.mem_cons_of_mem _ hq), ?_⟩
        intro hqp
        rw [hsup'] at hnd
        exact (List.nodup_cons.1 hnd).1 (hqp ▸ hq)
    have hm0 : mappedIn ((scratchState supply e0).heap ++ [(p, zeroTable)]) p
        (fun _ => False) := by
      refine mappedIn_zeroTable ?_
      show heapGet [(p, zeroTable)] p = some zeroTable
      simp [heapGet]
    rcases hbt : buildIdentityTables p ranges apicBase { pml4 := some p, heap := (scratchState supply e0).heap ++ [(p, zeroTable)], supply := rest, allocCount := (scratchState supply e0).allocCount + 1, freeCount := (scratchState supply e0).freeCount, eptp := (scratchState supply e0).eptp } with ⟨st2, ok⟩
    rw [hbt] at hok
    cases ok
    · exact absurd hok (by simp)
    · dsimp only
      have hcov := buildIdentityTables_cov p ranges apicBase _ _ hG1 rfl hrg hapic hm0
        (by rw [hbt])
      rw [hbt] at hcov
      refine ⟨p, hcov.1, ?_⟩
      intro f hf
      refine (hcov.2 f hf).trans ?_
      rw [rangeFrames]
      simp only [List.any_eq_true, decide_eq_true_eq, Bool.or_eq_true, beq_iff_eq]
      constructor
      · rintro (hfa | ⟨pr, hpr, hp⟩ | hfalse)
        · exact Or.inr hfa
        · exact Or.inl ⟨pr, hpr, hp⟩
        · exact absurd hfalse id
      · rintro (⟨pr, hpr, hp⟩ | hfa)
        · exact Or.inr (Or.inl ⟨pr, hpr, hp⟩)
        · exact Or.inl hfa

set_option maxRecDepth 40000 in
theorem initialize_coverage_witness :
    (([1, 2, 3, 4] : List Nat).Nodup ∧ (0xFEE00000 : Nat) < 2 ^ 48 ∧
      (ShvVmxEptInitialize [] 0xFEE00000 (scratchState [1, 2, 3, 4] 0)).2 = true) ∧
    (∃ r, (ShvVmxEptInitialize [] 0xFEE00000 (scratchState [1, 2, 3, 4] 0)).1.pml4
        = some r ∧
      ∀ f, f < 2 ^ 36 →
        ((walkLeaf (ShvVmxEptInitialize [] 0xFEE00000
            (scratchState [1, 2, 3, 4] 0)).1.heap 4 r (f * 4096) ≠ 0)
          ↔ rangeFrames [] 0xFEE00000 f = true)) :=
  ⟨⟨by decide, by decide, by decide⟩,
    initialize_coverage [] 0xFEE00000 0 [1, 2, 3, 4] (by decide) (by decide)
      (by decide) (by decide) (by decide)⟩

end SimpleVisor
